import Mathlib

/-!
# Verification of the dparval lazy JSON value system

Shallow embedding of `value.go` (package `dparval`): a heap of mutable
`Value` nodes (Go `*Value` pointers become addresses into an explicit
store), with the recursive, store-mutating `Value()` materializer modelled
as a fuel-indexed function.

Modelling conventions:
* Go `*Value` pointers are `Addr` (indices into `Store.nodes`); pointer
  sharing and in-place mutation are explicit store updates.
* Go native JSON values (`interface{}` trees produced by `json.Unmarshal`
  or handed to `NewValue`) are modelled by the inductive `Native` with
  value semantics.  Go's `nil` interface is `Native.null`.
* Go `float64` payloads are carried by `Int`: no claim performs numeric
  computation, numbers only flow through the system unchanged.
* The external collaborators (`json.Validate`, `json.Unmarshal`,
  `jsonpointer.Find`) are modelled by their contracts (spec section 6):
  a validated byte buffer is carried together with the document it
  encodes (`RawBytes.valid cs j`), `Unmarshal` maps that document to the
  corresponding `interface{}` value, and `jsonpointer.Find` performs the
  single-segment child lookup on the encoded document.
* Go map iteration builds the same set of entries in any order; the model
  fixes the association-list order.  Go panics are modelled as `none`.
-/

/-! ## Type constants (value.go, `const` block: NOT_JSON = iota, ...) -/

def NOT_JSON : Int := 0
def NULL : Int := 1
def BOOLEAN : Int := 2
def NUMBER : Int := 3
def STRING : Int := 4
def ARRAY : Int := 5
def OBJECT : Int := 6

/-! ## Native JSON values (Go `interface{}` trees) -/

/-- A Go `interface{}` holding a JSON-native tree: `nil`, `bool`,
`float64`, `string`, `[]interface\x7b\x7d` or `map[string]interface\x7b\x7d`.
`null` doubles as the `nil` interface. -/
inductive Native where
  | null : Native
  | bool (b : Bool) : Native
  | num (n : Int) : Native
  | str (s : String) : Native
  | arr (xs : List Native) : Native
  | obj (kvs : List (String × Native)) : Native
deriving Repr

/-- Addresses of heap-allocated `Value` nodes (Go `*Value`). -/
abbrev Addr := Nat

/-- A validated-or-not raw byte buffer.  `valid cs j` carries the original
characters `cs` together with the JSON document `j` they encode (the
contract of the external grammar validator); `invalid cs` is a buffer the
validator rejected. -/
inductive RawBytes where
  | invalid (cs : List Char) : RawBytes
  | valid (cs : List Char) (j : Native) : RawBytes
deriving Repr

/-- The character content of a raw buffer. -/
def RawBytes.chars : RawBytes → List Char
  | .invalid cs => cs
  | .valid cs _ => cs

/-- The possible states of the `parsedValue interface\x7b\x7d` field:
scalars stored at construction, `[]*Value` / `map[string]*Value` built by
`newArrayValue` / `newObjectValue`, and the native containers produced by
`json.Unmarshal` on the raw bytes.  Go's `nil` interface is `Option.none`
at the use sites. -/
inductive PVal where
  | pBool (b : Bool) : PVal
  | pNum (n : Int) : PVal
  | pStr (s : String) : PVal
  | pArrV (elems : List Addr) : PVal
  | pObjV (fields : List (String × Addr)) : PVal
  | pArrN (xs : List Native) : PVal
  | pObjN (kvs : List (String × Native)) : PVal
deriving Repr

/-- The `Value` struct of value.go. -/
structure Node where
  raw : Option RawBytes
  parsedValue : Option PVal
  aliasMap : Option (List (String × Addr))
  parsedType : Int
  meta : Option Addr
deriving Repr

/-- The heap: every Go `*Value` in existence, indexed by `Addr`. -/
structure Store where
  nodes : List Node
deriving Repr

def Store.empty : Store := ⟨[]⟩

def Store.get (s : Store) (a : Addr) : Option Node := s.nodes[a]?

def Store.setNode (s : Store) (a : Addr) (nd : Node) : Store :=
  ⟨s.nodes.set a nd⟩

def Store.alloc (s : Store) (nd : Node) : Addr × Store :=
  (s.nodes.length, ⟨s.nodes ++ [nd]⟩)

/-- Read `v.Type()` of the node at `a` (`none` when the pointer dangles). -/
def typeOf (s : Store) (a : Addr) : Option Int :=
  (s.get a).map (·.parsedType)

/-! ## Association-list operations standing in for Go maps -/

/-- Go map read `m[k]` (first matching key). -/
def lookupKey {α : Type} : List (String × α) → String → Option α
  | [], _ => none
  | (k', v) :: rest, k => if k' = k then some v else lookupKey rest k

/-- Go map write `m[k] = v`: replace the entry in place, or append. -/
def setKey {α : Type} : List (String × α) → String → α → List (String × α)
  | [], k, v => [(k, v)]
  | (k', v') :: rest, k, v =>
    if k' = k then (k, v) :: rest else (k', v') :: setKey rest k v

/-- Model of `strconv.Itoa`. -/
def itoa (i : Int) : String := toString i

/-- The numeric value of a decimal digit character (code points 48-57). -/
def digitVal (c : Char) : Option Nat :=
  if 48 ≤ c.toNat ∧ c.toNat ≤ 57 then some (c.toNat - 48) else none

/-- Accumulate a decimal digit string. -/
def natDigits : List Char → Nat → Option Nat
  | [], acc => some acc
  | c :: rest, acc =>
    match digitVal c with
    | some d => natDigits rest (10 * acc + d)
    | none => none

/-- Model of `strconv.ParseInt(s, 10, 32)` as used by `overlayAlias`: an
optional `+` or `-` sign followed by decimal digits, subject to the 32-bit
range check (a malformed or out-of-range string is an error, which
`overlayAlias` turns into a panic). -/
def atoi (s : String) : Option Int :=
  match s.toList with
  | [] => none
  | '-' :: rest =>
    match rest with
    | [] => none
    | _ => (natDigits rest 0).bind fun m =>
        if m ≤ 2147483648 then some (-(m : Int)) else none
  | '+' :: rest =>
    match rest with
    | [] => none
    | _ => (natDigits rest 0).bind fun m =>
        if m ≤ 2147483647 then some (m : Int) else none
  | l => (natDigits l 0).bind fun m =>
      if m ≤ 2147483647 then some (m : Int) else none

/-- An opening curly bracket character (written via its code point). -/
def lbrace : Char := Char.ofNat 123

/-- A closing curly bracket character (written via its code point). -/
def rbrace : Char := Char.ofNat 125

/-! ## A canonical byte encoder for native documents

Used only to model the byte ranges handed back by the external
byte-pointer locator (`jsonpointer.Find` returns the sub-bytes of the
located child). -/

mutual

def encNative : Native → List Char
  | .null => "null".toList
  | .bool b => (if b then "true" else "false").toList
  | .num n => (toString n).toList
  | .str s => '"' :: s.toList ++ ['"']
  | .arr xs => '[' :: encElems xs ++ [']']
  | .obj kvs => lbrace :: encFields kvs ++ [rbrace]

def encElems : List Native → List Char
  | [] => []
  | [x] => encNative x
  | x :: y :: rest => encNative x ++ ',' :: encElems (y :: rest)

def encFields : List (String × Native) → List Char
  | [] => []
  | [(k, v)] => '"' :: k.toList ++ '"' :: ':' :: encNative v
  | (k, v) :: e :: rest =>
    '"' :: k.toList ++ '"' :: ':' :: encNative v ++ ',' :: encFields (e :: rest)

end

/-- The kind of a (validated) JSON document, as both the classifier scan
and a full parse report it. -/
def jkind : Native → Int
  | .null => NULL
  | .bool _ => BOOLEAN
  | .num _ => NUMBER
  | .str _ => STRING
  | .arr _ => ARRAY
  | .obj _ => OBJECT

/-! ## Construction (NewValue, newXValue, NewValueFromBytes) -/

/-- A Go `interface\x7b\x7d` argument as accepted by `NewValue`,
`SetPath`, `SetIndex` and `AddMeta`: a native literal, a native
container (which may mix literals and existing `*Value`s), or an
existing `*Value`. -/
inductive GoIface where
  | vnil : GoIface
  | bool (b : Bool) : GoIface
  | num (n : Int) : GoIface
  | str (s : String) : GoIface
  | arr (xs : List GoIface) : GoIface
  | obj (kvs : List (String × GoIface)) : GoIface
  | val (a : Addr) : GoIface

mutual

/-- Model of `NewValue` (value.go): dispatch on the dynamic type of the argument;
an existing `*Value` is returned unchanged (identity passthrough). -/
def NewValue : Store → GoIface → Addr × Store
  | s, .vnil => s.alloc ⟨none, none, none, NULL, none⟩
  | s, .bool b => s.alloc ⟨none, some (.pBool b), none, BOOLEAN, none⟩
  | s, .num n => s.alloc ⟨none, some (.pNum n), none, NUMBER, none⟩
  | s, .str st => s.alloc ⟨none, some (.pStr st), none, STRING, none⟩
  | s, .arr xs =>
    let p := buildElems s xs
    p.2.alloc ⟨none, some (.pArrV p.1), none, ARRAY, none⟩
  | s, .obj kvs =>
    let p := buildFields s kvs
    p.2.alloc ⟨none, some (.pObjV p.1), none, OBJECT, none⟩
  | s, .val a => (a, s)

/-- The element loop of `newArrayValue`: adopt `*Value`s by reference,
wrap anything else via `NewValue`. -/
def buildElems : Store → List GoIface → List Addr × Store
  | s, [] => ([], s)
  | s, .val b :: rest =>
    let p := buildElems s rest
    (b :: p.1, p.2)
  | s, .vnil :: rest =>
    let q := NewValue s .vnil
    let p := buildElems q.2 rest
    (q.1 :: p.1, p.2)
  | s, .bool b :: rest =>
    let q := NewValue s (.bool b)
    let p := buildElems q.2 rest
    (q.1 :: p.1, p.2)
  | s, .num n :: rest =>
    let q := NewValue s (.num n)
    let p := buildElems q.2 rest
    (q.1 :: p.1, p.2)
  | s, .str st :: rest =>
    let q := NewValue s (.str st)
    let p := buildElems q.2 rest
    (q.1 :: p.1, p.2)
  | s, .arr xs :: rest =>
    let q := NewValue s (.arr xs)
    let p := buildElems q.2 rest
    (q.1 :: p.1, p.2)
  | s, .obj kvs :: rest =>
    let q := NewValue s (.obj kvs)
    let p := buildElems q.2 rest
    (q.1 :: p.1, p.2)

/-- The entry loop of `newObjectValue`. -/
def buildFields : Store → List (String × GoIface) → List (String × Addr) × Store
  | s, [] => ([], s)
  | s, (k, .val b) :: rest =>
    let p := buildFields s rest
    ((k, b) :: p.1, p.2)
  | s, (k, .vnil) :: rest =>
    let q := NewValue s .vnil
    let p := buildFields q.2 rest
    ((k, q.1) :: p.1, p.2)
  | s, (k, .bool b) :: rest =>
    let q := NewValue s (.bool b)
    let p := buildFields q.2 rest
    ((k, q.1) :: p.1, p.2)
  | s, (k, .num n) :: rest =>
    let q := NewValue s (.num n)
    let p := buildFields q.2 rest
    ((k, q.1) :: p.1, p.2)
  | s, (k, .str st) :: rest =>
    let q := NewValue s (.str st)
    let p := buildFields q.2 rest
    ((k, q.1) :: p.1, p.2)
  | s, (k, .arr xs) :: rest =>
    let q := NewValue s (.arr xs)
    let p := buildFields q.2 rest
    ((k, q.1) :: p.1, p.2)
  | s, (k, .obj kvs) :: rest =>
    let q := NewValue s (.obj kvs)
    let p := buildFields q.2 rest
    ((k, q.1) :: p.1, p.2)

end

/-- Model of `NewValueFromBytes` (value.go): store the raw buffer; run the external
validator; an invalid buffer gets kind `NOT_JSON`, a valid one the kind
`identifyType` reports, which for validated bytes is the document kind
(established separately by the classifier theorem). -/
def NewValueFromBytes (s : Store) (b : RawBytes) : Addr × Store :=
  s.alloc
    { raw := some b
      parsedValue := none
      aliasMap := none
      parsedType :=
        match b with
        | .invalid _ => NOT_JSON
        | .valid _ j => jkind j
      meta := none }

/-! ## The byte-pointer locator (external collaborator) -/

/-- Result of `jsonpointer.Find`: the located sub-range of bytes (with the
document it encodes), a not-found miss (`nil, nil` in Go), or an error. -/
inductive FindRes where
  | found (cs : List Char) (j : Native) : FindRes
  | notFound : FindRes
  | errored : FindRes

/-- Model of `jsonpointer.Find(raw, "/" + seg)` on the validated document:
object roots look up the key, array roots interpret the segment as a
decimal index (out of range is a miss), scalar roots miss, and running the
locator against invalid JSON is an error. -/
def jpFind : RawBytes → String → FindRes
  | .invalid _, _ => .errored
  | .valid _ j, seg =>
    match j with
    | .obj kvs =>
      match lookupKey kvs seg with
      | some c => .found (encNative c) c
      | none => .notFound
    | .arr xs =>
      match atoi seg with
      | some i =>
        if h : 0 ≤ i ∧ i.toNat < xs.length then
          .found (encNative (xs.get ⟨i.toNat, h.2⟩)) (xs.get ⟨i.toNat, h.2⟩)
        else .notFound
      | none => .notFound
    | _ => .notFound

/-! ## Navigation (Path, Index) -/

/-- The error component of `Path` / `Index`: the `Undefined` condition
(with the `Path` field it carries) or a propagated locator error. -/
inductive PErr where
  | undefined (nm : String) : PErr
  | findErr : PErr
deriving Repr, DecidableEq

/-- Result of `Path` / `Index`: a child `*Value` or an error. -/
inductive PRes where
  | ok (a : Addr) : PRes
  | err (e : PErr) : PRes
deriving Repr, DecidableEq

/-- The parsed-structure lookup step of `Path`: only a `map[string]*Value`
participates (natives produced by a forced parse fall through to raw). -/
def pvLookup : Option PVal → String → Option Addr
  | some (.pObjV fields), p => lookupKey fields p
  | _, _ => none

/-- Model of `Path` (value.go): alias first, then parsed `map[string]*Value`, then
the raw bytes via the locator; a miss is `Undefined` carrying the name. -/
def pathF (s : Store) (a : Addr) (p : String) : Option (PRes × Store) :=
  match s.get a with
  | none => none
  | some nd =>
    match nd.aliasMap.bind (fun al => lookupKey al p) with
    | some r => some (.ok r, s)
    | none =>
      match pvLookup nd.parsedValue p with
      | some r => some (.ok r, s)
      | none =>
        match nd.raw with
        | some rb =>
          match jpFind rb p with
          | .errored => some (.err .findErr, s)
          | .found cs c =>
            let q := NewValueFromBytes s (.valid cs c)
            some (.ok q.1, q.2)
          | .notFound => some (.err (.undefined p), s)
        | none => some (.err (.undefined p), s)

/-- The final, raw-bytes consultation section of `Index` (value.go). -/
def indexRaw (s : Store) (nd : Node) (i : Int) : Option (PRes × Store) :=
  match nd.raw with
  | some rb =>
    match jpFind rb (itoa i) with
    | .errored => some (.err .findErr, s)
    | .found cs c =>
      let q := NewValueFromBytes s (.valid cs c)
      some (.ok q.1, q.2)
    | .notFound => some (.err (.undefined ""), s)
  | none => some (.err (.undefined ""), s)

/-- Model of `Index` (value.go): alias (under the decimal form of the index) first,
then a parsed `[]*Value` (out of range is `Undefined` with no name,
consistent with the locator), then the raw bytes via `indexRaw`. -/
def indexF (s : Store) (a : Addr) (i : Int) : Option (PRes × Store) :=
  match s.get a with
  | none => none
  | some nd =>
    match nd.aliasMap.bind (fun al => lookupKey al (itoa i)) with
    | some r => some (.ok r, s)
    | none =>
      match nd.parsedValue with
      | some (.pArrV elems) =>
        if h : 0 ≤ i ∧ i.toNat < elems.length then
          some (.ok (elems.get ⟨i.toNat, h.2⟩), s)
        else some (.err (.undefined ""), s)
      | _ => indexRaw s nd i

/-! ## Overlay writes (SetPath, SetIndex) and metadata -/

/-- The argument normalization inside `SetPath` / `SetIndex`: an existing
`*Value` is stored as-is, anything else goes through `NewValue`. -/
def toValueAddr (s : Store) (v : GoIface) : Addr × Store :=
  match v with
  | .val b => (b, s)
  | w => NewValue s w

/-- Model of `SetPath` (value.go): only on kind `OBJECT`; write into an already
parsed `map[string]*Value`, or into the lazily created alias map when
nothing is parsed yet; otherwise do nothing. -/
def setPathF (s : Store) (a : Addr) (p : String) (v : GoIface) : Store :=
  match s.get a with
  | none => s
  | some nd =>
    if nd.parsedType = OBJECT then
      match nd.parsedValue with
      | some (.pObjV fields) =>
        let q := toValueAddr s v
        q.2.setNode a { nd with parsedValue := some (.pObjV (setKey fields p q.1)) }
      | none =>
        let q := toValueAddr s v
        q.2.setNode a { nd with aliasMap := some (setKey (nd.aliasMap.getD []) p q.1) }
      | _ => s
    else s

/-- Model of `SetIndex` (value.go): only on kind `ARRAY` with `i ≥ 0`; write into
an already parsed `[]*Value` when in range (writes past the end are
dropped), or into the alias map keyed by the decimal index when nothing is
parsed yet; otherwise do nothing. -/
def setIndexF (s : Store) (a : Addr) (i : Int) (v : GoIface) : Store :=
  match s.get a with
  | none => s
  | some nd =>
    if nd.parsedType = ARRAY ∧ 0 ≤ i then
      match nd.parsedValue with
      | some (.pArrV elems) =>
        if i.toNat < elems.length then
          let q := toValueAddr s v
          q.2.setNode a { nd with parsedValue := some (.pArrV (elems.set i.toNat q.1)) }
        else s
      | none =>
        let q := toValueAddr s v
        q.2.setNode a { nd with aliasMap := some (setKey (nd.aliasMap.getD []) (itoa i) q.1) }
      | _ => s
    else s

/-- Model of `AddMeta` (value.go): lazily create the metadata object, then
`SetPath` against it. -/
def addMetaF (s : Store) (a : Addr) (k : String) (v : GoIface) : Store :=
  match s.get a with
  | none => s
  | some nd =>
    match nd.meta with
    | some m => setPathF s m k v
    | none =>
      let q := NewValue s (.obj [])
      let s2 := q.2.setNode a { nd with meta := some q.1 }
      setPathF s2 q.1 k v

/-- Model of `Meta` (value.go). -/
def metaF (s : Store) (a : Addr) : Option Addr :=
  (s.get a).bind (·.meta)

/-! ## Materialization (Value, devalue, safeCopy, overlayAlias) -/

/-- Model of `json.Unmarshal(raw, &this.parsedValue)`: the native value a validated
document decodes to, as stored in the `parsedValue` field (`null` decodes
to the `nil` interface). -/
def toPVal : Native → Option PVal
  | .null => none
  | .bool b => some (.pBool b)
  | .num n => some (.pNum n)
  | .str s => some (.pStr s)
  | .arr xs => some (.pArrN xs)
  | .obj kvs => some (.pObjN kvs)

/-- Read a `parsedValue` interface back as the native it holds (the
`default` case of `devalue`; the `[]*Value` / `map[string]*Value` cases
are dispatched before this is consulted). -/
def pvalToNative : Option PVal → Native
  | none => .null
  | some (.pBool b) => .bool b
  | some (.pNum n) => .num n
  | some (.pStr s) => .str s
  | some (.pArrN xs) => .arr xs
  | some (.pObjN kvs) => .obj kvs
  | some (.pArrV _) => .null
  | some (.pObjV _) => .null

/-- Model of `safeCopy` (value.go): shallow-copy the top-level native container. -/
def safeCopy : Native → Native
  | .obj kvs => .obj (kvs.map fun e => e)
  | .arr xs => .arr (xs.map fun x => x)
  | b => b

/-- The `map[string]*Value` loop of `devalue`: children of kind `NOT_JSON`
contribute no entry. -/
def devalueObjList (f : Store → Addr → Option (Native × Store)) :
    Store → List (String × Addr) → Option (List (String × Native) × Store)
  | s, [] => some ([], s)
  | s, (k, a) :: rest =>
    match typeOf s a with
    | none => none
    | some t =>
      if t ≠ NOT_JSON then
        match f s a with
        | none => none
        | some (v, s1) =>
          match devalueObjList f s1 rest with
          | none => none
          | some (m, s2) => some ((k, v) :: m, s2)
      else devalueObjList f s rest

/-- The `[]*Value` loop of `devalue`: every child contributes an entry
(there is no kind check on this path). -/
def devalueArrList (f : Store → Addr → Option (Native × Store)) :
    Store → List Addr → Option (List Native × Store)
  | s, [] => some ([], s)
  | s, a :: rest =>
    match f s a with
    | none => none
    | some (v, s1) =>
      match devalueArrList f s1 rest with
      | none => none
      | some (m, s2) => some (v :: m, s2)

/-- Model of `devalue` (value.go), parameterized by the recursive `Value` call. -/
def devalueF (f : Store → Addr → Option (Native × Store)) (s : Store) :
    Option PVal → Option (Native × Store)
  | some (.pObjV fields) =>
    (devalueObjList f s fields).map fun p => (Native.obj p.1, p.2)
  | some (.pArrV elems) =>
    (devalueArrList f s elems).map fun p => (Native.arr p.1, p.2)
  | pv => some (pvalToNative pv, s)

/-- The `map[string]interface\x7b\x7d` loop of `overlayAlias`: overlaid
entries of kind `NOT_JSON` are skipped. -/
def overlayObjList (f : Store → Addr → Option (Native × Store)) :
    Store → List (String × Native) → List (String × Addr) →
    Option (List (String × Native) × Store)
  | s, base, [] => some (base, s)
  | s, base, (k, a) :: rest =>
    match typeOf s a with
    | none => none
    | some t =>
      if t ≠ NOT_JSON then
        match f s a with
        | none => none
        | some (v, s1) => overlayObjList f s1 (setKey base k v) rest
      else overlayObjList f s base rest

/-- The `[]interface\x7b\x7d` loop of `overlayAlias`: parse the key back
to an int (panic when impossible), drop out-of-range writes, skip
`NOT_JSON` entries. -/
def overlayArrList (f : Store → Addr → Option (Native × Store)) :
    Store → List Native → List (String × Addr) →
    Option (List Native × Store)
  | s, base, [] => some (base, s)
  | s, base, (k, a) :: rest =>
    match atoi k with
    | none => none
    | some i =>
      if 0 ≤ i ∧ i.toNat < base.length then
        match typeOf s a with
        | none => none
        | some t =>
          if t ≠ NOT_JSON then
            match f s a with
            | none => none
            | some (v, s1) => overlayArrList f s1 (base.set i.toNat v) rest
          else overlayArrList f s base rest
      else overlayArrList f s base rest

/-- Model of `overlayAlias` (value.go), parameterized by the recursive `Value`
call; a non-container base is left untouched. -/
def overlayF (f : Store → Addr → Option (Native × Store)) (s : Store)
    (base : Native) (al : List (String × Addr)) : Option (Native × Store) :=
  match base with
  | .obj kvs => (overlayObjList f s kvs al).map fun p => (Native.obj p.1, p.2)
  | .arr xs => (overlayArrList f s xs al).map fun p => (Native.arr p.1, p.2)
  | b => some (b, s)

/-- Model of `Value` (value.go), with a fuel bound on the recursion depth (`none`
means the fuel ran out or a Go panic was hit).  Already-parsed nodes (or
kind `NULL`) devalue their structure and merge the alias overlay on top;
unparsed JSON-kind nodes decode their raw bytes into `parsedValue`
(mutating the store), then either return the fresh decode directly or
overlay onto a defensive shallow copy; `NOT_JSON` nodes yield `nil`. -/
def valueBody (f : Store → Addr → Option (Native × Store)) (s : Store)
    (a : Addr) (nd : Node) : Option (Native × Store) :=
  if nd.parsedValue.isSome ∨ nd.parsedType = NULL then
    match devalueF f s nd.parsedValue with
    | none => none
    | some (rv, s1) =>
      match nd.aliasMap with
      | none => some (rv, s1)
      | some al => overlayF f s1 rv al
  else if nd.parsedType ≠ NOT_JSON then
    match nd.raw with
    | some (.valid _ j) =>
      let s1 := s.setNode a { nd with parsedValue := toPVal j }
      match nd.aliasMap with
      | none => some (pvalToNative (toPVal j), s1)
      | some al => overlayF f s1 (safeCopy (pvalToNative (toPVal j))) al
    | _ => none
  else some (.null, s)

def valueF : Nat → Store → Addr → Option (Native × Store)
  | 0, _, _ => none
  | n + 1, s, a =>
    match s.get a with
    | none => none
    | some nd => valueBody (valueF n) s a nd

/-! ## A pure denotation of `Value`

`denF` computes the same result as `valueF` but never mutates the store
(it re-reads raw bytes instead of caching the decode).  It is the pivot
for the idempotence proof: `valueF`'s store mutations are invisible to
`denF`, so two successive `valueF` runs return the same denotation. -/

def denObjList (f : Addr → Option Native) (s : Store) :
    List (String × Addr) → Option (List (String × Native))
  | [] => some []
  | (k, a) :: rest =>
    match typeOf s a with
    | none => none
    | some t =>
      if t ≠ NOT_JSON then
        match f a with
        | none => none
        | some v =>
          match denObjList f s rest with
          | none => none
          | some m => some ((k, v) :: m)
      else denObjList f s rest

def denArrList (f : Addr → Option Native) (s : Store) :
    List Addr → Option (List Native)
  | [] => some []
  | a :: rest =>
    match f a with
    | none => none
    | some v =>
      match denArrList f s rest with
      | none => none
      | some m => some (v :: m)

def denPV (f : Addr → Option Native) (s : Store) :
    Option PVal → Option Native
  | some (.pObjV fields) =>
    match denObjList f s fields with
    | none => none
    | some m => some (.obj m)
  | some (.pArrV elems) =>
    match denArrList f s elems with
    | none => none
    | some m => some (.arr m)
  | pv => some (pvalToNative pv)

def denOvObj (f : Addr → Option Native) (s : Store) :
    List (String × Native) → List (String × Addr) →
    Option (List (String × Native))
  | base, [] => some base
  | base, (k, a) :: rest =>
    match typeOf s a with
    | none => none
    | some t =>
      if t ≠ NOT_JSON then
        match f a with
        | none => none
        | some v => denOvObj f s (setKey base k v) rest
      else denOvObj f s base rest

def denOvArr (f : Addr → Option Native) (s : Store) :
    List Native → List (String × Addr) → Option (List Native)
  | base, [] => some base
  | base, (k, a) :: rest =>
    match atoi k with
    | none => none
    | some i =>
      if 0 ≤ i ∧ i.toNat < base.length then
        match typeOf s a with
        | none => none
        | some t =>
          if t ≠ NOT_JSON then
            match f a with
            | none => none
            | some v => denOvArr f s (base.set i.toNat v) rest
          else denOvArr f s base rest
      else denOvArr f s base rest

def denOv (f : Addr → Option Native) (s : Store) (base : Native)
    (al : List (String × Addr)) : Option Native :=
  match base with
  | .obj kvs =>
    match denOvObj f s kvs al with
    | none => none
    | some m => some (.obj m)
  | .arr xs =>
    match denOvArr f s xs al with
    | none => none
    | some m => some (.arr m)
  | b => some b

def denBody (f : Addr → Option Native) (s : Store) (nd : Node) :
    Option Native :=
  if nd.parsedValue.isSome ∨ nd.parsedType = NULL then
    match denPV f s nd.parsedValue with
    | none => none
    | some rv =>
      match nd.aliasMap with
      | none => some rv
      | some al => denOv f s rv al
  else if nd.parsedType ≠ NOT_JSON then
    match nd.raw with
    | some (.valid _ j) =>
      match nd.aliasMap with
      | none => some (pvalToNative (toPVal j))
      | some al => denOv f s (safeCopy (pvalToNative (toPVal j))) al
    | _ => none
  else some .null

def denF : Nat → Store → Addr → Option Native
  | 0, _, _ => none
  | n + 1, s, a =>
    match s.get a with
    | none => none
    | some nd => denBody (denF n s) s nd

/-! ## Parse steps: how `valueF` may change the store

`valueF` only ever fills an unparsed node's `parsedValue` with the decode
of its raw bytes; every other field of every node, and the set of
allocated addresses, stay untouched. -/

/-- A single node either stays as it is, or has its pending raw decode
cached into `parsedValue`. -/
def NodeStep (nd nd2 : Node) : Prop :=
  nd2 = nd ∨ ∃ cs j, nd.raw = some (.valid cs j) ∧ nd.parsedValue = none ∧
    nd.parsedType ≠ NULL ∧ nd.parsedType ≠ NOT_JSON ∧
    nd2 = { nd with parsedValue := toPVal j }

/-- The store relation maintained by `valueF`. -/
def ParseSteps (s s2 : Store) : Prop :=
  s2.nodes.length = s.nodes.length ∧
  ∀ a nd, s.get a = some nd → ∃ nd2, s2.get a = some nd2 ∧ NodeStep nd nd2

/-- The induction hypothesis threaded through the simulation lemmas. -/
def SimIH (n : Nat) : Prop :=
  ∀ s a r s2, valueF n s a = some (r, s2) →
    ParseSteps s s2 ∧ denF n s a = some r

/-- The bytes-backed document of the TestComplexOverlay scenario with an
alias overlay already recorded: the first `Value()` call forces the parse,
the second takes the already-parsed path. -/
def c2Store : Store :=
  let p := NewValueFromBytes Store.empty
    (.valid "\x7b\"marty\": \"cool\"\x7d".toList (.obj [("marty", .str "cool")]))
  setPathF p.2 p.1 "marty" (.str "ok")

/-- The store cached by the first `Value()` call on `c2Store`. -/
def c2Store1 : Store :=
  ((valueF 3 c2Store 0).map Prod.snd).getD Store.empty

/-! ## Allocation-only store extensions (construction never mutates) -/

/-- Holds when `s2` extends `s` without touching any existing node. -/
def AllocOnly (s s2 : Store) : Prop :=
  ∀ b nd, s.get b = some nd → s2.get b = some nd

/-- Every node of `s2` is an untouched node of `s` or a fresh node with no
alias map. -/
def AllocAliasNone (s s2 : Store) : Prop :=
  ∀ b nd, s2.get b = some nd → s.get b = some nd ∨ nd.aliasMap = none

/-! ## Per-operation store facts for the raw-immutability and
alias-invariant claims -/

/-- Every node present in `s` is still present in `s2` with the same
`raw` buffer. -/
def RawPreserved (s s2 : Store) : Prop :=
  ∀ b nd, s.get b = some nd → ∃ nd2, s2.get b = some nd2 ∧ nd2.raw = nd.raw

/-- A bytes-backed object document used to witness the navigation
claims. -/
def c3Store : Store :=
  (NewValueFromBytes Store.empty
    (.valid "\x7b\"name\":\"marty\"\x7d".toList
      (.obj [("name", .str "marty")]))).2

/-- The store after `Path("name")` on `c3Store` (one child allocated). -/
def c3Store2 : Store :=
  ((pathF c3Store 0 "name").map Prod.snd).getD Store.empty

/-! ## Claim C10: the alias map lives only on containers -/

/-- The invariant of claim C10: a non-nil alias map appears only on nodes
of kind `OBJECT` or `ARRAY`. -/
def AliasOK (s : Store) : Prop :=
  ∀ a nd, s.get a = some nd → nd.aliasMap ≠ none →
    nd.parsedType = OBJECT ∨ nd.parsedType = ARRAY

/-- A scalar (string-kind) Value used to witness the no-op claim. -/
def c7Store : Store := (NewValue Store.empty (.str "x")).2

/-- The miss scenarios of the test suite used as witnesses: `Path("dne")`
on a bytes-backed object and `Index(2)` on a constructed two-element
array. -/
def c6ArrStore : Store :=
  (NewValue Store.empty (.arr [.str "marty", .str "gerald"])).2

/-! ## Claim C1: overlay priority after SetPath

The failing scenario: a bytes-backed object whose parse has been forced by
a `Value()` call holds its decode as a native `map[string]interface\x7b\x7d`;
`SetPath`'s type switch covers only `map[string]*Value` and `nil`, so the
write is silently dropped and a subsequent `Path` resolves from the raw
bytes to the original value. -/

/-- A bytes-backed `\x7b"a":1\x7d` document. -/
def c1Store : Store :=
  (NewValueFromBytes Store.empty
    (.valid "\x7b\"a\":1\x7d".toList (.obj [("a", .num 1)]))).2

/-- The store `c1Store` after a `Value()` call forced the parse. -/
def c1Parsed : Store := ((valueF 3 c1Store 0).map Prod.snd).getD Store.empty

/-- The store `c1Parsed` after `SetPath("a", 2)`. -/
def c1After : Store := setPathF c1Parsed 0 "a" (.num 2)

/-- What `Path("a").Value()` observes after the above sequence. -/
def c1Result : Option Native :=
  (pathF c1After 0 "a").bind fun q =>
    match q.1 with
    | .ok b => (valueF 3 q.2 b).map Prod.fst
    | .err _ => none

/-! ## Claim C5: treatment of NOT_JSON children and overlay entries -/

/-- A store holding a `NOT_JSON` node (address 0) inside a constructed
array (address 1). -/
def c5ArrStore : Store :=
  (NewValue (NewValueFromBytes Store.empty (.invalid "asdf".toList)).2
    (.arr [.val 0])).2

/-- A store holding the same `NOT_JSON` node inside a constructed object
(address 1). -/
def c5ObjStore : Store :=
  (NewValue (NewValueFromBytes Store.empty (.invalid "asdf".toList)).2
    (.obj [("x", .val 0)])).2

/-- An object `A = \x7b"x": 1\x7d` (address 1, its child `1` at address
0). -/
def c8Base : Store := (NewValue Store.empty (.obj [("x", .num 1)])).2

/-- Object `B = \x7b"bucket": A\x7d` (address 2) adopting `A` by reference. -/
def c8WithB : Store := (NewValue c8Base (.obj [("bucket", .val 1)])).2

/-- The heap after mutating `A` via `A.SetPath("x", 2)`. -/
def c8After : Store := setPathF c8WithB 1 "x" (.num 2)

/-! ## Claim C9: the cheap byte round-trip -/

/-- Modelled from the spec: the Byte Re-encoder `bytes()` (spec section
4.6) is missing from this version of the source — the README lists
`ValueBytes()` under Future Ideas — so it is modelled from the spec's
words.  Scalar kinds return `raw` verbatim when present and re-encode
otherwise; Array/Object kinds return `raw` verbatim exactly when nothing
has touched the node (`parsedValue` empty, overlay empty, `raw` present),
and otherwise materialize and re-encode (the nested reuse of untouched
children's raw bytes is not modelled; no claim depends on it). -/
def bytesF (n : Nat) (s : Store) (a : Addr) : Option (List Char × Store) :=
  match s.get a with
  | none => none
  | some nd =>
    if nd.parsedType = ARRAY ∨ nd.parsedType = OBJECT then
      match nd.parsedValue, nd.aliasMap, nd.raw with
      | none, none, some rb => some (rb.chars, s)
      | _, _, _ => (valueF n s a).map fun p => (encNative p.1, p.2)
    else
      match nd.raw with
      | some rb => some (rb.chars, s)
      | none => (valueF n s a).map fun p => (encNative p.1, p.2)

/-! ## Claim C4: the type classifier

The byte-level model of `identifyType` (value.go) together with a grammar
of validated JSON text.  A JSON document is leading whitespace, a value,
trailing whitespace; the grammar tracks enough structure (the token that
opens each value) to pin down the first significant byte, and is
deliberately generous about token interiors — every text the external
validator accepts is generated by it. -/

/-- JSON insignificant whitespace. -/
def isWsChar (c : Char) : Bool :=
  c = ' ' || c = '\t' || c = '\n' || c = '\r'

/-- The ten decimal digit bytes of the `identifyType` switch. -/
def isDigitChar (c : Char) : Bool :=
  c = '0' || c = '1' || c = '2' || c = '3' || c = '4' || c = '5' ||
  c = '6' || c = '7' || c = '8' || c = '9'

/-- Model of `identifyType` (value.go): scan for the first byte matching a case of
the switch; `none` is the fall-through panic ("Unable to identify type of
valid JSON"). -/
def identifyTypeChars : List Char → Option Int
  | [] => none
  | b :: rest =>
    if b = lbrace then some OBJECT
    else if b = '[' then some ARRAY
    else if b = '"' then some STRING
    else if isDigitChar b then some NUMBER
    else if b = 't' ∨ b = 'f' then some BOOLEAN
    else if b = 'n' then some NULL
    else identifyTypeChars rest

/-- Abstract JSON values carrying the token shape of their text (for
numbers: the sign and the first digit). -/
inductive Jsn where
  | null : Jsn
  | bool (b : Bool) : Jsn
  | num (neg : Bool) (d : Char) (rest : List Char) : Jsn
  | str (body : List Char) : Jsn
  | arr (xs : List Jsn) : Jsn
  | obj (kvs : List (List Char × Jsn)) : Jsn

/-- The kind a full parse reports for an abstract JSON value. -/
def jsnKind : Jsn → Int
  | .null => NULL
  | .bool _ => BOOLEAN
  | .num _ _ _ => NUMBER
  | .str _ => STRING
  | .arr _ => ARRAY
  | .obj _ => OBJECT

/-- All characters are insignificant whitespace. -/
def AllWsList (ws : List Char) : Prop := ∀ c ∈ ws, isWsChar c = true

mutual

/-- The text of a JSON value: `null`, `true`, `false`, a number (optional
minus sign, then a digit, then an unconstrained tail), a string (quote,
body, quote), or a bracketed array/object with whitespace-separated
contents. -/
inductive JsonValue : Jsn → List Char → Prop where
  | jnull : JsonValue .null "null".toList
  | jtrue : JsonValue (.bool true) "true".toList
  | jfalse : JsonValue (.bool false) "false".toList
  | jnum : ∀ (neg : Bool) (d : Char) (rest : List Char),
      isDigitChar d = true →
      JsonValue (.num neg d rest) ((if neg then ['-'] else []) ++ d :: rest)
  | jstr : ∀ (body : List Char),
      JsonValue (.str body) ('"' :: body ++ ['"'])
  | jarrEmpty : ∀ ws, AllWsList ws → JsonValue (.arr []) ('[' :: ws ++ [']'])
  | jarr : ∀ xs inner, JsonElems xs inner →
      JsonValue (.arr xs) ('[' :: inner ++ [']'])
  | jobjEmpty : ∀ ws, AllWsList ws →
      JsonValue (.obj []) (lbrace :: ws ++ [rbrace])
  | jobj : ∀ kvs inner, JsonMembers kvs inner →
      JsonValue (.obj kvs) (lbrace :: inner ++ [rbrace])

/-- The comma-separated element list of a JSON array. -/
inductive JsonElems : List Jsn → List Char → Prop where
  | single : ∀ w1 w2 j cs, AllWsList w1 → AllWsList w2 → JsonValue j cs →
      JsonElems [j] (w1 ++ cs ++ w2)
  | more : ∀ w1 w2 j cs rest rcs, AllWsList w1 → AllWsList w2 →
      JsonValue j cs → JsonElems rest rcs →
      JsonElems (j :: rest) (w1 ++ cs ++ w2 ++ ',' :: rcs)

/-- The comma-separated member list of a JSON object. -/
inductive JsonMembers : List (List Char × Jsn) → List Char → Prop where
  | single : ∀ w1 w2 w3 w4 k j cs, AllWsList w1 → AllWsList w2 →
      AllWsList w3 → AllWsList w4 → JsonValue j cs →
      JsonMembers [(k, j)]
        (w1 ++ '"' :: k ++ '"' :: w2 ++ ':' :: w3 ++ cs ++ w4)
  | more : ∀ w1 w2 w3 w4 k j cs rest rcs, AllWsList w1 → AllWsList w2 →
      AllWsList w3 → AllWsList w4 → JsonValue j cs →
      JsonMembers rest rcs →
      JsonMembers ((k, j) :: rest)
        (w1 ++ '"' :: k ++ '"' :: w2 ++ ':' :: w3 ++ cs ++ w4 ++ ',' :: rcs)

end

/-- A validated JSON document: leading whitespace, one value, trailing
whitespace. -/
def ValidJsonDoc (j : Jsn) (cs : List Char) : Prop :=
  ∃ w1 body w2, AllWsList w1 ∧ AllWsList w2 ∧ JsonValue j body ∧
    cs = w1 ++ body ++ w2

/-! ## Basic lemmas about the store and the decode round-trip -/

theorem Store.get_setNode_self (s : Store) (a : Addr) (nd : Node)
    (h : a < s.nodes.length) : (s.setNode a nd).get a = some nd := by
  simp [Store.get, Store.setNode, List.getElem?_set_eq h]

theorem Store.get_setNode_ne (s : Store) (a b : Addr) (nd : Node)
    (h : a ≠ b) : (s.setNode a nd).get b = s.get b := by
  simp [Store.get, Store.setNode, List.getElem?_set_ne h]

theorem Store.length_setNode (s : Store) (a : Addr) (nd : Node) :
    (s.setNode a nd).nodes.length = s.nodes.length := by
  simp [Store.setNode]

theorem Store.get_alloc_old (s : Store) (nd : Node) (b : Addr)
    (h : b < s.nodes.length) : (s.alloc nd).2.get b = s.get b := by
  simp [Store.get, Store.alloc, List.getElem?_append_left h]

theorem Store.get_alloc_new (s : Store) (nd : Node) :
    (s.alloc nd).2.get (s.alloc nd).1 = some nd := by
  simp [Store.get, Store.alloc]

theorem Store.get_some_lt (s : Store) (a : Addr) (nd : Node)
    (h : s.get a = some nd) : a < s.nodes.length := by
  by_contra hc
  rw [Store.get, List.getElem?_eq_none_iff.mpr (Nat.le_of_not_lt hc)] at h
  exact Option.noConfusion h

theorem Store.get_none_of_le (s : Store) (a : Addr)
    (h : s.nodes.length ≤ a) : s.get a = none :=
  List.getElem?_eq_none_iff.mpr h

theorem pvalToNative_toPVal (j : Native) : pvalToNative (toPVal j) = j := by
  cases j <;> rfl

theorem safeCopy_eq (j : Native) : safeCopy j = j := by
  cases j <;> simp [safeCopy]

theorem denPV_toPVal (f : Addr → Option Native) (s : Store) (j : Native) :
    denPV f s (toPVal j) = some j := by
  cases j <;> rfl

theorem nodeStep_refl (nd : Node) : NodeStep nd nd := Or.inl rfl

theorem NodeStep.raw_eq {nd nd2 : Node} (h : NodeStep nd nd2) :
    nd2.raw = nd.raw := by
  rcases h with h | ⟨cs, j, _, _, _, _, h⟩ <;> subst h <;> rfl

theorem NodeStep.aliasMap_eq {nd nd2 : Node} (h : NodeStep nd nd2) :
    nd2.aliasMap = nd.aliasMap := by
  rcases h with h | ⟨cs, j, _, _, _, _, h⟩ <;> subst h <;> rfl

theorem NodeStep.parsedType_eq {nd nd2 : Node} (h : NodeStep nd nd2) :
    nd2.parsedType = nd.parsedType := by
  rcases h with h | ⟨cs, j, _, _, _, _, h⟩ <;> subst h <;> rfl

theorem NodeStep.meta_eq {nd nd2 : Node} (h : NodeStep nd nd2) :
    nd2.meta = nd.meta := by
  rcases h with h | ⟨cs, j, _, _, _, _, h⟩ <;> subst h <;> rfl

theorem nodeStep_trans {nd nd2 nd3 : Node} (h1 : NodeStep nd nd2)
    (h2 : NodeStep nd2 nd3) : NodeStep nd nd3 := by
  rcases h1 with h1 | ⟨cs, j, hr, hp, hn, hnj, h1⟩
  · subst h1; exact h2
  · subst h1
    rcases h2 with h2 | ⟨cs2, j2, hr2, hp2, _, _, h2⟩
    · subst h2; exact Or.inr ⟨cs, j, hr, hp, hn, hnj, rfl⟩
    · -- a second fill requires the first fill to have left `parsedValue` empty,
      -- i.e. the decode was `null`; then both fills are the identity
      simp only at hr2 hp2
      obtain ⟨hcs, hj⟩ := RawBytes.valid.inj (Option.some.inj (hr.symm.trans hr2))
      subst h2
      exact Or.inr ⟨cs2, j2, hr2, hp, hn, hnj, by simp [← hj, hp2]⟩

theorem parseSteps_refl (s : Store) : ParseSteps s s :=
  ⟨rfl, fun a nd h => ⟨nd, h, nodeStep_refl nd⟩⟩

theorem parseSteps_trans {s1 s2 s3 : Store} (h1 : ParseSteps s1 s2)
    (h2 : ParseSteps s2 s3) : ParseSteps s1 s3 := by
  refine ⟨h2.1.trans h1.1, fun a nd h => ?_⟩
  obtain ⟨nd2, hg2, hs2⟩ := h1.2 a nd h
  obtain ⟨nd3, hg3, hs3⟩ := h2.2 a nd2 hg2
  exact ⟨nd3, hg3, nodeStep_trans hs2 hs3⟩

theorem ParseSteps.get_none {s s2 : Store} (h : ParseSteps s s2) (a : Addr)
    (hn : s.get a = none) : s2.get a = none := by
  apply Store.get_none_of_le
  rw [h.1]
  exact List.getElem?_eq_none_iff.mp hn

theorem ParseSteps.typeOf_eq {s s2 : Store} (h : ParseSteps s s2) (a : Addr) :
    typeOf s2 a = typeOf s a := by
  cases hg : s.get a with
  | none => rw [typeOf, typeOf, hg, h.get_none a hg]
  | some nd =>
    obtain ⟨nd2, hg2, hs⟩ := h.2 a nd hg
    rw [typeOf, typeOf, hg, hg2]
    simp [hs.parsedType_eq]

/-! ## Stability of the denotation under parse steps -/

theorem denObjList_congr (f g : Addr → Option Native) (s s2 : Store)
    (hf : ∀ a, f a = g a) (ht : ∀ a, typeOf s2 a = typeOf s a) :
    ∀ l, denObjList f s2 l = denObjList g s l := by
  intro l
  induction l with
  | nil => rfl
  | cons e rest ih =>
    obtain ⟨k, a⟩ := e
    rw [denObjList, denObjList, ht a, hf a, ih]

theorem denArrList_congr (f g : Addr → Option Native) (s s2 : Store)
    (hf : ∀ a, f a = g a) :
    ∀ l, denArrList f s2 l = denArrList g s l := by
  intro l
  induction l with
  | nil => rfl
  | cons a rest ih => rw [denArrList, denArrList, hf a, ih]

theorem denPV_congr (f g : Addr → Option Native) (s s2 : Store)
    (hf : ∀ a, f a = g a) (ht : ∀ a, typeOf s2 a = typeOf s a) :
    ∀ pv, denPV f s2 pv = denPV g s pv := by
  intro pv
  match pv with
  | some (.pObjV fields) =>
    rw [denPV, denPV, denObjList_congr f g s s2 hf ht]
  | some (.pArrV elems) =>
    rw [denPV, denPV, denArrList_congr f g s s2 hf]
  | none => rfl
  | some (.pBool _) => rfl
  | some (.pNum _) => rfl
  | some (.pStr _) => rfl
  | some (.pArrN _) => rfl
  | some (.pObjN _) => rfl

theorem denOvObj_congr (f g : Addr → Option Native) (s s2 : Store)
    (hf : ∀ a, f a = g a) (ht : ∀ a, typeOf s2 a = typeOf s a) :
    ∀ al base, denOvObj f s2 base al = denOvObj g s base al := by
  intro al
  induction al with
  | nil => intro base; rfl
  | cons e rest ih =>
    intro base
    obtain ⟨k, a⟩ := e
    cases hx : typeOf s a with
    | none => simp only [denOvObj, ht, hf, hx]
    | some t =>
      by_cases htj : t ≠ NOT_JSON
      · simp only [denOvObj, ht, hf, hx, if_pos htj]
        cases g a with
        | none => rfl
        | some v => exact ih (setKey base k v)
      · simp only [denOvObj, ht, hf, hx, if_neg htj]
        exact ih base

theorem denOvArr_congr (f g : Addr → Option Native) (s s2 : Store)
    (hf : ∀ a, f a = g a) (ht : ∀ a, typeOf s2 a = typeOf s a) :
    ∀ al base, denOvArr f s2 base al = denOvArr g s base al := by
  intro al
  induction al with
  | nil => intro base; rfl
  | cons e rest ih =>
    intro base
    obtain ⟨k, a⟩ := e
    cases hk : atoi k with
    | none => simp only [denOvArr, hk]
    | some i =>
      by_cases hir : 0 ≤ i ∧ i.toNat < base.length
      · cases hx : typeOf s a with
        | none => simp only [denOvArr, ht, hf, hk, hx, if_pos hir]
        | some t =>
          by_cases htj : t ≠ NOT_JSON
          · simp only [denOvArr, ht, hf, hk, hx, if_pos hir, if_pos htj]
            cases g a with
            | none => rfl
            | some v => exact ih (base.set i.toNat v)
          · simp only [denOvArr, ht, hf, hk, hx, if_pos hir, if_neg htj]
            exact ih base
      · simp only [denOvArr, ht, hf, hk, if_neg hir]
        exact ih base

theorem denOv_congr (f g : Addr → Option Native) (s s2 : Store)
    (hf : ∀ a, f a = g a) (ht : ∀ a, typeOf s2 a = typeOf s a)
    (base : Native) (al : List (String × Addr)) :
    denOv f s2 base al = denOv g s base al := by
  cases base with
  | obj kvs => rw [denOv, denOv, denOvObj_congr f g s s2 hf ht]
  | arr xs => rw [denOv, denOv, denOvArr_congr f g s s2 hf ht]
  | null => rfl
  | bool b => rfl
  | num n => rfl
  | str st => rfl

theorem denBody_congr (f g : Addr → Option Native) (s s2 : Store)
    (hf : ∀ a, f a = g a) (ht : ∀ a, typeOf s2 a = typeOf s a)
    (nd : Node) : denBody f s2 nd = denBody g s nd := by
  rw [denBody, denBody, denPV_congr f g s s2 hf ht nd.parsedValue]
  by_cases hc : nd.parsedValue.isSome ∨ nd.parsedType = NULL
  · rw [if_pos hc, if_pos hc]
    cases denPV g s nd.parsedValue with
    | none => rfl
    | some rv =>
      cases nd.aliasMap with
      | none => rfl
      | some al => exact denOv_congr f g s s2 hf ht rv al
  · rw [if_neg hc, if_neg hc]
    by_cases hnj : nd.parsedType ≠ NOT_JSON
    · rw [if_pos hnj, if_pos hnj]
      match nd.raw with
      | some (.valid cs j) =>
        cases nd.aliasMap with
        | none => rfl
        | some al =>
          exact denOv_congr f g s s2 hf ht (safeCopy (pvalToNative (toPVal j))) al
      | some (.invalid cs) => rfl
      | none => rfl
    · rw [if_neg hnj, if_neg hnj]

/-- Computing `denBody` on a node whose `parsedValue` holds a native (non-`*Value`)
payload: the already-parsed branch returns the payload, with the alias
overlay merged on top. -/
theorem denBody_parsedNative (f : Addr → Option Native) (s : Store)
    (nd : Node) (pv : PVal) (hpv : nd.parsedValue = some pv)
    (hnat : denPV f s (some pv) = some (pvalToNative (some pv))) :
    denBody f s nd =
      match nd.aliasMap with
      | none => some (pvalToNative (some pv))
      | some al => denOv f s (pvalToNative (some pv)) al := by
  rw [denBody, hpv, if_pos (Or.inl (by simp)), hnat]

/-- Filling a node's pending decode does not change what `denBody`
computes for it. -/
theorem denBody_fill (f : Addr → Option Native) (s : Store) (nd : Node)
    (cs : List Char) (j : Native) (hr : nd.raw = some (.valid cs j))
    (hp : nd.parsedValue = none) (hn : nd.parsedType ≠ NULL)
    (hnj : nd.parsedType ≠ NOT_JSON) :
    denBody f s { nd with parsedValue := toPVal j } = denBody f s nd := by
  have hc1 : ¬(nd.parsedValue.isSome ∨ nd.parsedType = NULL) := by
    rintro (h1 | h2)
    · rw [hp] at h1; simp at h1
    · exact hn h2
  have hside : denBody f s nd =
      match nd.aliasMap with
      | none => some (pvalToNative (toPVal j))
      | some al => denOv f s (safeCopy (pvalToNative (toPVal j))) al := by
    rw [denBody, if_neg hc1, if_pos hnj, hr]
  cases hj : toPVal j with
  | none =>
    have hrec : ({ nd with parsedValue := none } : Node) = nd := by
      rw [← hp]
    rw [hrec]
  | some pv =>
    have hnat : denPV f s (some pv) = some (pvalToNative (some pv)) := by
      have h0 : denPV f s (toPVal j) = some (pvalToNative (toPVal j)) := by
        rw [denPV_toPVal, pvalToNative_toPVal]
      rwa [hj] at h0
    rw [hj] at hside
    rw [hside]
    simp only [safeCopy_eq]
    exact denBody_parsedNative f s _ pv rfl hnat

/-- The denotation of every address is unchanged by parse steps. -/
theorem den_stab {s s2 : Store} (h : ParseSteps s s2) :
    ∀ n a, denF n s2 a = denF n s a := by
  intro n
  induction n with
  | zero => intro a; rfl
  | succ n ih =>
    intro a
    cases hg : s.get a with
    | none => rw [denF, denF, hg, h.get_none a hg]
    | some nd =>
      obtain ⟨nd2, hg2, hs⟩ := h.2 a nd hg
      rw [denF, denF, hg, hg2]
      rcases hs with he | ⟨cs, j, hr, hp, hn, hnj, he⟩
      · subst he
        exact denBody_congr _ _ _ _ ih h.typeOf_eq nd2
      · subst he
        exact (denBody_fill (denF n s2) s2 nd cs j hr hp hn hnj).trans
          (denBody_congr _ _ _ _ ih h.typeOf_eq nd)

/-! ## Fuel monotonicity of the denotation -/

theorem denObjList_mono (f g : Addr → Option Native) (s : Store)
    (hfg : ∀ a r, f a = some r → g a = some r) :
    ∀ l out, denObjList f s l = some out → denObjList g s l = some out := by
  intro l
  induction l with
  | nil => intro out h; exact h
  | cons e rest ih =>
    intro out h
    obtain ⟨k, a⟩ := e
    cases hx : typeOf s a with
    | none =>
      simp only [denObjList, hx] at h
      exact Option.noConfusion h
    | some t =>
      by_cases htj : t ≠ NOT_JSON
      · simp only [denObjList, hx, if_pos htj] at h ⊢
        cases hfa : f a with
        | none =>
          simp only [hfa] at h
          exact Option.noConfusion h
        | some v =>
          simp only [hfa] at h
          cases hrest : denObjList f s rest with
          | none =>
            simp only [hrest] at h
            exact Option.noConfusion h
          | some m =>
            simp only [hrest] at h
            simp only [hfg a v hfa, ih m hrest]
            exact h
      · simp only [denObjList, hx, if_neg htj] at h ⊢
        exact ih out h

theorem denArrList_mono (f g : Addr → Option Native) (s : Store)
    (hfg : ∀ a r, f a = some r → g a = some r) :
    ∀ l out, denArrList f s l = some out → denArrList g s l = some out := by
  intro l
  induction l with
  | nil => intro out h; exact h
  | cons a rest ih =>
    intro out h
    simp only [denArrList] at h ⊢
    cases hfa : f a with
    | none =>
      simp only [hfa] at h
      exact Option.noConfusion h
    | some v =>
      simp only [hfa] at h
      cases hrest : denArrList f s rest with
      | none =>
        simp only [hrest] at h
        exact Option.noConfusion h
      | some m =>
        simp only [hrest] at h
        simp only [hfg a v hfa, ih m hrest]
        exact h

theorem denPV_mono (f g : Addr → Option Native) (s : Store)
    (hfg : ∀ a r, f a = some r → g a = some r) :
    ∀ pv out, denPV f s pv = some out → denPV g s pv = some out := by
  intro pv out h
  match pv with
  | some (.pObjV fields) =>
    simp only [denPV] at h ⊢
    cases hm : denObjList f s fields with
    | none =>
      simp only [hm] at h
      exact Option.noConfusion h
    | some m =>
      simp only [hm] at h
      simp only [denObjList_mono f g s hfg fields m hm]
      exact h
  | some (.pArrV elems) =>
    simp only [denPV] at h ⊢
    cases hm : denArrList f s elems with
    | none =>
      simp only [hm] at h
      exact Option.noConfusion h
    | some m =>
      simp only [hm] at h
      simp only [denArrList_mono f g s hfg elems m hm]
      exact h
  | none => exact h
  | some (.pBool _) => exact h
  | some (.pNum _) => exact h
  | some (.pStr _) => exact h
  | some (.pArrN _) => exact h
  | some (.pObjN _) => exact h

theorem denOvObj_mono (f g : Addr → Option Native) (s : Store)
    (hfg : ∀ a r, f a = some r → g a = some r) :
    ∀ al base out, denOvObj f s base al = some out →
      denOvObj g s base al = some out := by
  intro al
  induction al with
  | nil => intro base out h; exact h
  | cons e rest ih =>
    intro base out h
    obtain ⟨k, a⟩ := e
    cases hx : typeOf s a with
    | none =>
      simp only [denOvObj, hx] at h
      exact Option.noConfusion h
    | some t =>
      by_cases htj : t ≠ NOT_JSON
      · simp only [denOvObj, hx, if_pos htj] at h ⊢
        cases hfa : f a with
        | none =>
          simp only [hfa] at h
          exact Option.noConfusion h
        | some v =>
          simp only [hfa] at h
          simp only [hfg a v hfa]
          exact ih (setKey base k v) out h
      · simp only [denOvObj, hx, if_neg htj] at h ⊢
        exact ih base out h

theorem denOvArr_mono (f g : Addr → Option Native) (s : Store)
    (hfg : ∀ a r, f a = some r → g a = some r) :
    ∀ al base out, denOvArr f s base al = some out →
      denOvArr g s base al = some out := by
  intro al
  induction al with
  | nil => intro base out h; exact h
  | cons e rest ih =>
    intro base out h
    obtain ⟨k, a⟩ := e
    cases hk : atoi k with
    | none =>
      simp only [denOvArr, hk] at h
      exact Option.noConfusion h
    | some i =>
      by_cases hir : 0 ≤ i ∧ i.toNat < base.length
      · cases hx : typeOf s a with
        | none =>
          simp only [denOvArr, hk, hx, if_pos hir] at h
          exact Option.noConfusion h
        | some t =>
          by_cases htj : t ≠ NOT_JSON
          · simp only [denOvArr, hk, hx, if_pos hir, if_pos htj] at h ⊢
            cases hfa : f a with
            | none =>
              simp only [hfa] at h
              exact Option.noConfusion h
            | some v =>
              simp only [hfa] at h
              simp only [hfg a v hfa]
              exact ih (base.set i.toNat v) out h
          · simp only [denOvArr, hk, hx, if_pos hir, if_neg htj] at h ⊢
            exact ih base out h
      · simp only [denOvArr, hk, if_neg hir] at h ⊢
        exact ih base out h

theorem denOv_mono (f g : Addr → Option Native) (s : Store)
    (hfg : ∀ a r, f a = some r → g a = some r) (base : Native)
    (al : List (String × Addr)) (out : Native)
    (h : denOv f s base al = some out) : denOv g s base al = some out := by
  cases base with
  | obj kvs =>
    simp only [denOv] at h ⊢
    cases hm : denOvObj f s kvs al with
    | none =>
      simp only [hm] at h
      exact Option.noConfusion h
    | some m =>
      simp only [hm] at h
      simp only [denOvObj_mono f g s hfg al kvs m hm]
      exact h
  | arr xs =>
    simp only [denOv] at h ⊢
    cases hm : denOvArr f s xs al with
    | none =>
      simp only [hm] at h
      exact Option.noConfusion h
    | some m =>
      simp only [hm] at h
      simp only [denOvArr_mono f g s hfg al xs m hm]
      exact h
  | null => exact h
  | bool b => exact h
  | num n => exact h
  | str st => exact h

theorem denBody_mono (f g : Addr → Option Native) (s : Store)
    (hfg : ∀ a r, f a = some r → g a = some r) (nd : Node) (r : Native)
    (h : denBody f s nd = some r) : denBody g s nd = some r := by
  by_cases hc : nd.parsedValue.isSome ∨ nd.parsedType = NULL
  · rw [denBody, if_pos hc] at h ⊢
    cases hpv : denPV f s nd.parsedValue with
    | none =>
      simp only [hpv] at h
      exact Option.noConfusion h
    | some rv =>
      simp only [hpv] at h
      simp only [denPV_mono f g s hfg nd.parsedValue rv hpv]
      cases hal : nd.aliasMap with
      | none => simp only [hal] at h; exact h
      | some al =>
        simp only [hal] at h
        exact denOv_mono f g s hfg rv al r h
  · rw [denBody, if_neg hc] at h ⊢
    by_cases hnj : nd.parsedType ≠ NOT_JSON
    · rw [if_pos hnj] at h ⊢
      match hraw : nd.raw with
      | some (.valid cs j) =>
        simp only [hraw] at h ⊢
        cases hal : nd.aliasMap with
        | none => simp only [hal] at h; exact h
        | some al =>
          simp only [hal] at h
          exact denOv_mono f g s hfg (safeCopy (pvalToNative (toPVal j))) al r h
      | some (.invalid cs) =>
        simp only [hraw] at h
        exact Option.noConfusion h
      | none =>
        simp only [hraw] at h
        exact Option.noConfusion h
    · rw [if_neg hnj] at h ⊢
      exact h

theorem den_mono :
    ∀ n m s a r, n ≤ m → denF n s a = some r → denF m s a = some r := by
  intro n
  induction n with
  | zero =>
    intro m s a r _ h
    exact absurd h (by simp [denF])
  | succ n ih =>
    intro m s a r hnm h
    obtain ⟨m2, rfl⟩ : ∃ m2, m = m2 + 1 := ⟨m - 1, by omega⟩
    have hnm2 : n ≤ m2 := by omega
    cases hg : s.get a with
    | none => rw [denF, hg] at h; exact absurd h (by simp)
    | some nd =>
      rw [denF, hg] at h
      rw [denF, hg]
      exact denBody_mono (denF n s) (denF m2 s) s
        (fun b rb => ih m2 s b rb hnm2) nd r h

/-! ## Simulation: `valueF` refines the pure denotation -/

/-- Caching the decode of an unparsed node is a parse step. -/
theorem ParseSteps.fill (s : Store) (a : Addr) (nd : Node) (cs : List Char)
    (j : Native) (hg : s.get a = some nd) (hr : nd.raw = some (.valid cs j))
    (hp : nd.parsedValue = none) (hn : nd.parsedType ≠ NULL)
    (hnj : nd.parsedType ≠ NOT_JSON) :
    ParseSteps s (s.setNode a { nd with parsedValue := toPVal j }) := by
  refine ⟨Store.length_setNode s a _, fun b ndb hgb => ?_⟩
  by_cases hab : a = b
  · subst hab
    rw [hg] at hgb
    obtain rfl := Option.some.inj hgb
    exact ⟨{ nd with parsedValue := toPVal j },
      Store.get_setNode_self s a _ (Store.get_some_lt s a nd hg),
      Or.inr ⟨cs, j, hr, hp, hn, hnj, rfl⟩⟩
  · exact ⟨ndb, (Store.get_setNode_ne s a b _ hab).trans hgb, nodeStep_refl ndb⟩

theorem devalueObjList_sim (n : Nat) (hih : SimIH n) :
    ∀ l s out s2, devalueObjList (valueF n) s l = some (out, s2) →
      ParseSteps s s2 ∧ denObjList (denF n s) s l = some out := by
  intro l
  induction l with
  | nil =>
    intro s out s2 h
    simp only [devalueObjList, Option.some.injEq, Prod.mk.injEq] at h
    obtain ⟨rfl, rfl⟩ := h
    exact ⟨parseSteps_refl s, rfl⟩
  | cons e rest ih =>
    intro s out s2 h
    obtain ⟨k, a⟩ := e
    cases hx : typeOf s a with
    | none =>
      simp only [devalueObjList, hx] at h
      exact Option.noConfusion h
    | some t =>
      by_cases htj : t ≠ NOT_JSON
      · simp only [devalueObjList, hx, if_pos htj] at h
        cases hva : valueF n s a with
        | none =>
          simp only [hva] at h
          exact Option.noConfusion h
        | some p =>
          obtain ⟨v, s1⟩ := p
          simp only [hva] at h
          cases hrest : devalueObjList (valueF n) s1 rest with
          | none =>
            simp only [hrest] at h
            exact Option.noConfusion h
          | some q =>
            obtain ⟨m, s3⟩ := q
            simp only [hrest, Option.some.injEq, Prod.mk.injEq] at h
            obtain ⟨rfl, rfl⟩ := h
            obtain ⟨st1, hd1⟩ := hih s a v s1 hva
            obtain ⟨st2, hd2⟩ := ih s1 m s3 hrest
            have htr : denObjList (denF n s1) s1 rest =
                denObjList (denF n s) s rest :=
              denObjList_congr (denF n s1) (denF n s) s s1
                (fun b => den_stab st1 n b) (fun b => st1.typeOf_eq b) rest
            refine ⟨parseSteps_trans st1 st2, ?_⟩
            simp only [denObjList, hx, if_pos htj, hd1, ← htr, hd2]
      · simp only [devalueObjList, hx, if_neg htj] at h
        obtain ⟨st, hd⟩ := ih s out s2 h
        refine ⟨st, ?_⟩
        simp only [denObjList, hx, if_neg htj, hd]

theorem devalueArrList_sim (n : Nat) (hih : SimIH n) :
    ∀ l s out s2, devalueArrList (valueF n) s l = some (out, s2) →
      ParseSteps s s2 ∧ denArrList (denF n s) s l = some out := by
  intro l
  induction l with
  | nil =>
    intro s out s2 h
    simp only [devalueArrList, Option.some.injEq, Prod.mk.injEq] at h
    obtain ⟨rfl, rfl⟩ := h
    exact ⟨parseSteps_refl s, rfl⟩
  | cons a rest ih =>
    intro s out s2 h
    simp only [devalueArrList] at h
    cases hva : valueF n s a with
    | none =>
      simp only [hva] at h
      exact Option.noConfusion h
    | some p =>
      obtain ⟨v, s1⟩ := p
      simp only [hva] at h
      cases hrest : devalueArrList (valueF n) s1 rest with
      | none =>
        simp only [hrest] at h
        exact Option.noConfusion h
      | some q =>
        obtain ⟨m, s3⟩ := q
        simp only [hrest, Option.some.injEq, Prod.mk.injEq] at h
        obtain ⟨rfl, rfl⟩ := h
        obtain ⟨st1, hd1⟩ := hih s a v s1 hva
        obtain ⟨st2, hd2⟩ := ih s1 m s3 hrest
        have htr : denArrList (denF n s1) s1 rest =
            denArrList (denF n s) s rest :=
          denArrList_congr (denF n s1) (denF n s) s s1
            (fun b => den_stab st1 n b) rest
        refine ⟨parseSteps_trans st1 st2, ?_⟩
        simp only [denArrList, hd1, ← htr, hd2]

theorem overlayObjList_sim (n : Nat) (hih : SimIH n) :
    ∀ l s base out s2, overlayObjList (valueF n) s base l = some (out, s2) →
      ParseSteps s s2 ∧ denOvObj (denF n s) s base l = some out := by
  intro l
  induction l with
  | nil =>
    intro s base out s2 h
    simp only [overlayObjList, Option.some.injEq, Prod.mk.injEq] at h
    obtain ⟨rfl, rfl⟩ := h
    exact ⟨parseSteps_refl s, rfl⟩
  | cons e rest ih =>
    intro s base out s2 h
    obtain ⟨k, a⟩ := e
    cases hx : typeOf s a with
    | none =>
      simp only [overlayObjList, hx] at h
      exact Option.noConfusion h
    | some t =>
      by_cases htj : t ≠ NOT_JSON
      · simp only [overlayObjList, hx, if_pos htj] at h
        cases hva : valueF n s a with
        | none =>
          simp only [hva] at h
          exact Option.noConfusion h
        | some p =>
          obtain ⟨v, s1⟩ := p
          simp only [hva] at h
          obtain ⟨st1, hd1⟩ := hih s a v s1 hva
          obtain ⟨st2, hd2⟩ := ih s1 (setKey base k v) out s2 h
          have htr : ∀ b, denOvObj (denF n s1) s1 b rest =
              denOvObj (denF n s) s b rest := fun b =>
            denOvObj_congr (denF n s1) (denF n s) s s1
              (fun c => den_stab st1 n c) (fun c => st1.typeOf_eq c) rest b
          refine ⟨parseSteps_trans st1 st2, ?_⟩
          simp only [denOvObj, hx, if_pos htj, hd1]
          rw [← htr (setKey base k v)]
          exact hd2
      · simp only [overlayObjList, hx, if_neg htj] at h
        obtain ⟨st, hd⟩ := ih s base out s2 h
        refine ⟨st, ?_⟩
        simp only [denOvObj, hx, if_neg htj, hd]

theorem overlayArrList_sim (n : Nat) (hih : SimIH n) :
    ∀ l s base out s2, overlayArrList (valueF n) s base l = some (out, s2) →
      ParseSteps s s2 ∧ denOvArr (denF n s) s base l = some out := by
  intro l
  induction l with
  | nil =>
    intro s base out s2 h
    simp only [overlayArrList, Option.some.injEq, Prod.mk.injEq] at h
    obtain ⟨rfl, rfl⟩ := h
    exact ⟨parseSteps_refl s, rfl⟩
  | cons e rest ih =>
    intro s base out s2 h
    obtain ⟨k, a⟩ := e
    cases hk : atoi k with
    | none =>
      simp only [overlayArrList, hk] at h
      exact Option.noConfusion h
    | some i =>
      by_cases hir : 0 ≤ i ∧ i.toNat < base.length
      · cases hx : typeOf s a with
        | none =>
          simp only [overlayArrList, hk, hx, if_pos hir] at h
          exact Option.noConfusion h
        | some t =>
          by_cases htj : t ≠ NOT_JSON
          · simp only [overlayArrList, hk, hx, if_pos hir, if_pos htj] at h
            cases hva : valueF n s a with
            | none =>
              simp only [hva] at h
              exact Option.noConfusion h
            | some p =>
              obtain ⟨v, s1⟩ := p
              simp only [hva] at h
              obtain ⟨st1, hd1⟩ := hih s a v s1 hva
              obtain ⟨st2, hd2⟩ := ih s1 (base.set i.toNat v) out s2 h
              have htr : ∀ b, denOvArr (denF n s1) s1 b rest =
                  denOvArr (denF n s) s b rest := fun b =>
                denOvArr_congr (denF n s1) (denF n s) s s1
                  (fun c => den_stab st1 n c) (fun c => st1.typeOf_eq c) rest b
              refine ⟨parseSteps_trans st1 st2, ?_⟩
              simp only [denOvArr, hk, hx, if_pos hir, if_pos htj, hd1]
              rw [← htr (base.set i.toNat v)]
              exact hd2
          · simp only [overlayArrList, hk, hx, if_pos hir, if_neg htj] at h
            obtain ⟨st, hd⟩ := ih s base out s2 h
            refine ⟨st, ?_⟩
            simp only [denOvArr, hk, hx, if_pos hir, if_neg htj, hd]
      · simp only [overlayArrList, hk, if_neg hir] at h
        obtain ⟨st, hd⟩ := ih s base out s2 h
        refine ⟨st, ?_⟩
        simp only [denOvArr, hk, if_neg hir, hd]

theorem devalueF_sim (n : Nat) (hih : SimIH n) (s : Store) (pv : Option PVal)
    (out : Native) (s2 : Store)
    (h : devalueF (valueF n) s pv = some (out, s2)) :
    ParseSteps s s2 ∧ denPV (denF n s) s pv = some out := by
  match pv with
  | some (.pObjV fields) =>
    simp only [devalueF] at h
    cases hm : devalueObjList (valueF n) s fields with
    | none =>
      simp only [hm] at h
      exact Option.noConfusion h
    | some q =>
      obtain ⟨m, s3⟩ := q
      simp only [hm, Option.some.injEq, Prod.mk.injEq] at h
      obtain ⟨rfl, rfl⟩ := h
      obtain ⟨st, hd⟩ := devalueObjList_sim n hih fields s m s3 hm
      exact ⟨st, by simp only [denPV, hd]⟩
  | some (.pArrV elems) =>
    simp only [devalueF] at h
    cases hm : devalueArrList (valueF n) s elems with
    | none =>
      simp only [hm] at h
      exact Option.noConfusion h
    | some q =>
      obtain ⟨m, s3⟩ := q
      simp only [hm, Option.some.injEq, Prod.mk.injEq] at h
      obtain ⟨rfl, rfl⟩ := h
      obtain ⟨st, hd⟩ := devalueArrList_sim n hih elems s m s3 hm
      exact ⟨st, by simp only [denPV, hd]⟩
  | none =>
    simp only [devalueF, Option.some.injEq, Prod.mk.injEq] at h
    obtain ⟨rfl, rfl⟩ := h
    exact ⟨parseSteps_refl s, rfl⟩
  | some (.pBool b) =>
    simp only [devalueF, Option.some.injEq, Prod.mk.injEq] at h
    obtain ⟨rfl, rfl⟩ := h
    exact ⟨parseSteps_refl s, rfl⟩
  | some (.pNum m) =>
    simp only [devalueF, Option.some.injEq, Prod.mk.injEq] at h
    obtain ⟨rfl, rfl⟩ := h
    exact ⟨parseSteps_refl s, rfl⟩
  | some (.pStr st) =>
    simp only [devalueF, Option.some.injEq, Prod.mk.injEq] at h
    obtain ⟨rfl, rfl⟩ := h
    exact ⟨parseSteps_refl s, rfl⟩
  | some (.pArrN xs) =>
    simp only [devalueF, Option.some.injEq, Prod.mk.injEq] at h
    obtain ⟨rfl, rfl⟩ := h
    exact ⟨parseSteps_refl s, rfl⟩
  | some (.pObjN kvs) =>
    simp only [devalueF, Option.some.injEq, Prod.mk.injEq] at h
    obtain ⟨rfl, rfl⟩ := h
    exact ⟨parseSteps_refl s, rfl⟩

theorem overlayF_sim (n : Nat) (hih : SimIH n) (s : Store) (base : Native)
    (al : List (String × Addr)) (out : Native) (s2 : Store)
    (h : overlayF (valueF n) s base al = some (out, s2)) :
    ParseSteps s s2 ∧ denOv (denF n s) s base al = some out := by
  cases base with
  | obj kvs =>
    simp only [overlayF] at h
    cases hm : overlayObjList (valueF n) s kvs al with
    | none =>
      simp only [hm] at h
      exact Option.noConfusion h
    | some q =>
      obtain ⟨m, s3⟩ := q
      simp only [hm, Option.some.injEq, Prod.mk.injEq] at h
      obtain ⟨rfl, rfl⟩ := h
      obtain ⟨st, hd⟩ := overlayObjList_sim n hih al s kvs m s3 hm
      exact ⟨st, by simp only [denOv, hd]⟩
  | arr xs =>
    simp only [overlayF] at h
    cases hm : overlayArrList (valueF n) s xs al with
    | none =>
      simp only [hm] at h
      exact Option.noConfusion h
    | some q =>
      obtain ⟨m, s3⟩ := q
      simp only [hm, Option.some.injEq, Prod.mk.injEq] at h
      obtain ⟨rfl, rfl⟩ := h
      obtain ⟨st, hd⟩ := overlayArrList_sim n hih al s xs m s3 hm
      exact ⟨st, by simp only [denOv, hd]⟩
  | null =>
    simp only [overlayF, Option.some.injEq, Prod.mk.injEq] at h
    obtain ⟨rfl, rfl⟩ := h
    exact ⟨parseSteps_refl s, rfl⟩
  | bool b =>
    simp only [overlayF, Option.some.injEq, Prod.mk.injEq] at h
    obtain ⟨rfl, rfl⟩ := h
    exact ⟨parseSteps_refl s, rfl⟩
  | num m =>
    simp only [overlayF, Option.some.injEq, Prod.mk.injEq] at h
    obtain ⟨rfl, rfl⟩ := h
    exact ⟨parseSteps_refl s, rfl⟩
  | str st =>
    simp only [overlayF, Option.some.injEq, Prod.mk.injEq] at h
    obtain ⟨rfl, rfl⟩ := h
    exact ⟨parseSteps_refl s, rfl⟩

/-- One materialization step simulates the pure denotation and only
performs parse steps on the store. -/
theorem valueF_sim :
    ∀ n s a r s2, valueF n s a = some (r, s2) →
      ParseSteps s s2 ∧ denF n s a = some r := by
  intro n
  induction n with
  | zero =>
    intro s a r s2 h
    exact absurd h (by simp [valueF])
  | succ n ih =>
    intro s a r s2 h
    cases hg : s.get a with
    | none =>
      rw [valueF, hg] at h
      exact absurd h (by simp)
    | some nd =>
      simp only [valueF, hg] at h
      simp only [denF, hg]
      by_cases hc : nd.parsedValue.isSome ∨ nd.parsedType = NULL
      · rw [valueBody, if_pos hc] at h
        rw [denBody, if_pos hc]
        cases hdv : devalueF (valueF n) s nd.parsedValue with
        | none =>
          simp only [hdv] at h
          exact Option.noConfusion h
        | some p =>
          obtain ⟨rv, s1⟩ := p
          simp only [hdv] at h
          obtain ⟨st1, hd1⟩ := devalueF_sim n ih s nd.parsedValue rv s1 hdv
          cases hal : nd.aliasMap with
          | none =>
            simp only [hal, Option.some.injEq, Prod.mk.injEq] at h
            obtain ⟨rfl, rfl⟩ := h
            exact ⟨st1, by simp only [hd1, hal]⟩
          | some al =>
            simp only [hal] at h
            obtain ⟨st2, hd2⟩ := overlayF_sim n ih s1 rv al r s2 h
            have htr : denOv (denF n s1) s1 rv al =
                denOv (denF n s) s rv al :=
              denOv_congr (denF n s1) (denF n s) s s1
                (fun c => den_stab st1 n c) (fun c => st1.typeOf_eq c) rv al
            refine ⟨parseSteps_trans st1 st2, ?_⟩
            simp only [hd1, hal, ← htr, hd2]
      · rw [valueBody, if_neg hc] at h
        rw [denBody, if_neg hc]
        by_cases hnj : nd.parsedType ≠ NOT_JSON
        · rw [if_pos hnj] at h ⊢
          match hraw : nd.raw with
          | some (.valid cs j) =>
            simp only [hraw] at h ⊢
            have hp : nd.parsedValue = none := by
              cases hpv : nd.parsedValue with
              | none => rfl
              | some pv =>
                exact absurd (Or.inl (by rw [hpv]; rfl)) hc
            have hn : nd.parsedType ≠ NULL := fun he => hc (Or.inr he)
            have hfill : ParseSteps s
                (s.setNode a { nd with parsedValue := toPVal j }) :=
              ParseSteps.fill s a nd cs j hg hraw hp hn hnj
            cases hal : nd.aliasMap with
            | none =>
              rw [hraw, hal] at hfill
              simp only [hal, Option.some.injEq, Prod.mk.injEq] at h
              obtain ⟨rfl, rfl⟩ := h
              exact ⟨hfill, rfl⟩
            | some al =>
              rw [hraw, hal] at hfill
              simp only [hal] at h
              obtain ⟨st2, hd2⟩ := overlayF_sim n ih _ _ al r s2 h
              have htr := denOv_congr _ (denF n s) s _
                (fun c => den_stab hfill n c) (fun c => hfill.typeOf_eq c)
                (safeCopy (pvalToNative (toPVal j))) al
              refine ⟨parseSteps_trans hfill st2, ?_⟩
              show denOv (denF n s) s (safeCopy (pvalToNative (toPVal j))) al =
                some r
              rw [← htr]
              exact hd2
          | some (.invalid cs) =>
            simp only [hraw] at h
            exact Option.noConfusion h
          | none =>
            simp only [hraw] at h
            exact Option.noConfusion h
        · rw [if_neg hnj] at h ⊢
          simp only [Option.some.injEq, Prod.mk.injEq] at h
          obtain ⟨rfl, rfl⟩ := h
          exact ⟨parseSteps_refl s, rfl⟩

/-! ## Claim C2: idempotence of Value() -/

/-- Claim C2: for every Value, calling `Value()` twice in succession with
no intervening writes returns equal results both times — with or without
overlay (alias) entries present, and in particular when the first call
forces a parse of the raw bytes and the second call takes the
already-parsed path. -/
theorem value_idempotent (n m : Nat) (s : Store) (a : Addr)
    (r1 r2 : Native) (s1 s2 : Store)
    (h1 : valueF n s a = some (r1, s1))
    (h2 : valueF m s1 a = some (r2, s2)) : r1 = r2 := by
  obtain ⟨st1, d1⟩ := valueF_sim n s a r1 s1 h1
  obtain ⟨st2, d2⟩ := valueF_sim m s1 a r2 s2 h2
  rw [den_stab st1 m a] at d2
  have e1 : denF (max n m) s a = some r1 :=
    den_mono n (max n m) s a r1 (Nat.le_max_left n m) d1
  have e2 : denF (max n m) s a = some r2 :=
    den_mono m (max n m) s a r2 (Nat.le_max_right n m) d2
  exact Option.some.inj (e1.symm.trans e2)

theorem value_idempotent_witness :
    Native.obj [("marty", Native.str "ok")] =
      Native.obj [("marty", Native.str "ok")] :=
  value_idempotent 3 3 c2Store 0
    (Native.obj [("marty", Native.str "ok")])
    (Native.obj [("marty", Native.str "ok")])
    c2Store1 c2Store1 (by rfl) (by rfl)

theorem allocOnly_refl (s : Store) : AllocOnly s s := fun _ _ h => h

theorem allocOnly_trans {s1 s2 s3 : Store} (h1 : AllocOnly s1 s2)
    (h2 : AllocOnly s2 s3) : AllocOnly s1 s3 :=
  fun b nd h => h2 b nd (h1 b nd h)

theorem allocAliasNone_refl (s : Store) : AllocAliasNone s s :=
  fun _ _ h => Or.inl h

theorem allocAliasNone_trans {s1 s2 s3 : Store} (h1 : AllocAliasNone s1 s2)
    (h2 : AllocAliasNone s2 s3) : AllocAliasNone s1 s3 := by
  intro b nd h
  rcases h2 b nd h with h | h
  · exact h1 b nd h
  · exact Or.inr h

theorem Store.allocOnly_alloc (s : Store) (nd : Node) :
    AllocOnly s (s.alloc nd).2 := fun b x h => by
  rw [Store.get_alloc_old s nd b (Store.get_some_lt s b x h)]
  exact h

theorem Store.get_alloc_cases (s : Store) (nd : Node) (b : Addr) (x : Node)
    (h : (s.alloc nd).2.get b = some x) : s.get b = some x ∨ x = nd := by
  by_cases hb : b < s.nodes.length
  · left
    rw [← Store.get_alloc_old s nd b hb]
    exact h
  · right
    have hb2 : s.nodes.length ≤ b := Nat.le_of_not_lt hb
    rw [Store.get, Store.alloc, List.getElem?_append_right hb2] at h
    cases hbe : b - s.nodes.length with
    | zero =>
      rw [hbe] at h
      exact (Option.some.inj h).symm
    | succ m =>
      rw [hbe] at h
      simp at h

theorem Store.allocAliasNone_alloc (s : Store) (nd : Node)
    (hnd : nd.aliasMap = none) : AllocAliasNone s (s.alloc nd).2 := by
  intro b x h
  rcases Store.get_alloc_cases s nd b x h with h | rfl
  · exact Or.inl h
  · exact Or.inr hnd

mutual

theorem NewValue_alloc (s : Store) (g : GoIface) :
    AllocOnly s (NewValue s g).2 ∧ AllocAliasNone s (NewValue s g).2 :=
  match g with
  | .vnil => ⟨Store.allocOnly_alloc s _, Store.allocAliasNone_alloc s _ rfl⟩
  | .bool _ => ⟨Store.allocOnly_alloc s _, Store.allocAliasNone_alloc s _ rfl⟩
  | .num _ => ⟨Store.allocOnly_alloc s _, Store.allocAliasNone_alloc s _ rfl⟩
  | .str _ => ⟨Store.allocOnly_alloc s _, Store.allocAliasNone_alloc s _ rfl⟩
  | .arr xs =>
    ⟨allocOnly_trans (buildElems_alloc s xs).1 (Store.allocOnly_alloc _ _),
     allocAliasNone_trans (buildElems_alloc s xs).2 (Store.allocAliasNone_alloc _ _ rfl)⟩
  | .obj kvs =>
    ⟨allocOnly_trans (buildFields_alloc s kvs).1 (Store.allocOnly_alloc _ _),
     allocAliasNone_trans (buildFields_alloc s kvs).2 (Store.allocAliasNone_alloc _ _ rfl)⟩
  | .val _ => ⟨allocOnly_refl s, allocAliasNone_refl s⟩

theorem buildElems_alloc (s : Store) (l : List GoIface) :
    AllocOnly s (buildElems s l).2 ∧ AllocAliasNone s (buildElems s l).2 :=
  match l with
  | [] => ⟨allocOnly_refl s, allocAliasNone_refl s⟩
  | .val _ :: rest => buildElems_alloc s rest
  | .vnil :: rest =>
    ⟨allocOnly_trans (NewValue_alloc s .vnil).1 (buildElems_alloc _ rest).1,
     allocAliasNone_trans (NewValue_alloc s .vnil).2 (buildElems_alloc _ rest).2⟩
  | .bool b :: rest =>
    ⟨allocOnly_trans (NewValue_alloc s (.bool b)).1 (buildElems_alloc _ rest).1,
     allocAliasNone_trans (NewValue_alloc s (.bool b)).2 (buildElems_alloc _ rest).2⟩
  | .num n :: rest =>
    ⟨allocOnly_trans (NewValue_alloc s (.num n)).1 (buildElems_alloc _ rest).1,
     allocAliasNone_trans (NewValue_alloc s (.num n)).2 (buildElems_alloc _ rest).2⟩
  | .str st :: rest =>
    ⟨allocOnly_trans (NewValue_alloc s (.str st)).1 (buildElems_alloc _ rest).1,
     allocAliasNone_trans (NewValue_alloc s (.str st)).2 (buildElems_alloc _ rest).2⟩
  | .arr xs :: rest =>
    ⟨allocOnly_trans (NewValue_alloc s (.arr xs)).1 (buildElems_alloc _ rest).1,
     allocAliasNone_trans (NewValue_alloc s (.arr xs)).2 (buildElems_alloc _ rest).2⟩
  | .obj kvs :: rest =>
    ⟨allocOnly_trans (NewValue_alloc s (.obj kvs)).1 (buildElems_alloc _ rest).1,
     allocAliasNone_trans (NewValue_alloc s (.obj kvs)).2 (buildElems_alloc _ rest).2⟩

theorem buildFields_alloc (s : Store) (l : List (String × GoIface)) :
    AllocOnly s (buildFields s l).2 ∧ AllocAliasNone s (buildFields s l).2 :=
  match l with
  | [] => ⟨allocOnly_refl s, allocAliasNone_refl s⟩
  | (_, .val _) :: rest => buildFields_alloc s rest
  | (_, .vnil) :: rest =>
    ⟨allocOnly_trans (NewValue_alloc s .vnil).1 (buildFields_alloc _ rest).1,
     allocAliasNone_trans (NewValue_alloc s .vnil).2 (buildFields_alloc _ rest).2⟩
  | (_, .bool b) :: rest =>
    ⟨allocOnly_trans (NewValue_alloc s (.bool b)).1 (buildFields_alloc _ rest).1,
     allocAliasNone_trans (NewValue_alloc s (.bool b)).2 (buildFields_alloc _ rest).2⟩
  | (_, .num n) :: rest =>
    ⟨allocOnly_trans (NewValue_alloc s (.num n)).1 (buildFields_alloc _ rest).1,
     allocAliasNone_trans (NewValue_alloc s (.num n)).2 (buildFields_alloc _ rest).2⟩
  | (_, .str st) :: rest =>
    ⟨allocOnly_trans (NewValue_alloc s (.str st)).1 (buildFields_alloc _ rest).1,
     allocAliasNone_trans (NewValue_alloc s (.str st)).2 (buildFields_alloc _ rest).2⟩
  | (_, .arr xs) :: rest =>
    ⟨allocOnly_trans (NewValue_alloc s (.arr xs)).1 (buildFields_alloc _ rest).1,
     allocAliasNone_trans (NewValue_alloc s (.arr xs)).2 (buildFields_alloc _ rest).2⟩
  | (_, .obj kvs) :: rest =>
    ⟨allocOnly_trans (NewValue_alloc s (.obj kvs)).1 (buildFields_alloc _ rest).1,
     allocAliasNone_trans (NewValue_alloc s (.obj kvs)).2 (buildFields_alloc _ rest).2⟩

end

theorem toValueAddr_alloc (s : Store) (v : GoIface) :
    AllocOnly s (toValueAddr s v).2 ∧ AllocAliasNone s (toValueAddr s v).2 :=
  match v with
  | .val _ => ⟨allocOnly_refl s, allocAliasNone_refl s⟩
  | .vnil => NewValue_alloc s .vnil
  | .bool b => NewValue_alloc s (.bool b)
  | .num n => NewValue_alloc s (.num n)
  | .str st => NewValue_alloc s (.str st)
  | .arr xs => NewValue_alloc s (.arr xs)
  | .obj kvs => NewValue_alloc s (.obj kvs)

theorem rawPreserved_refl (s : Store) : RawPreserved s s :=
  fun _ nd h => ⟨nd, h, rfl⟩

theorem rawPreserved_trans {s1 s2 s3 : Store} (h1 : RawPreserved s1 s2)
    (h2 : RawPreserved s2 s3) : RawPreserved s1 s3 := by
  intro b nd h
  obtain ⟨nd2, hg2, hr2⟩ := h1 b nd h
  obtain ⟨nd3, hg3, hr3⟩ := h2 b nd2 hg2
  exact ⟨nd3, hg3, hr3.trans hr2⟩

theorem RawPreserved.of_allocOnly {s s2 : Store} (h : AllocOnly s s2) :
    RawPreserved s s2 := fun b nd hb => ⟨nd, h b nd hb, rfl⟩

theorem RawPreserved.setNode {s : Store} {a : Addr} {nd nd2 : Node}
    (hg : s.get a = some nd) (hraw : nd2.raw = nd.raw) :
    RawPreserved s (s.setNode a nd2) := by
  intro b x hb
  by_cases hab : a = b
  · subst hab
    rw [hg] at hb
    obtain rfl := Option.some.inj hb
    exact ⟨nd2, Store.get_setNode_self s a nd2 (Store.get_some_lt s a nd hg),
      hraw⟩
  · exact ⟨x, (Store.get_setNode_ne s a b nd2 hab).trans hb, rfl⟩

theorem ParseSteps.rawPreserved {s s2 : Store} (h : ParseSteps s s2) :
    RawPreserved s s2 := by
  intro b nd hb
  obtain ⟨nd2, hg2, hstep⟩ := h.2 b nd hb
  exact ⟨nd2, hg2, hstep.raw_eq⟩

theorem Store.get_some_of_lt (s : Store) (b : Addr)
    (h : b < s.nodes.length) : ∃ nd, s.get b = some nd :=
  ⟨s.nodes[b], List.getElem?_eq_getElem h⟩

theorem ParseSteps.get_rev {s s2 : Store} (h : ParseSteps s s2) (b : Addr)
    (nd2 : Node) (hg2 : s2.get b = some nd2) :
    ∃ nd, s.get b = some nd ∧ NodeStep nd nd2 := by
  have hb : b < s.nodes.length := by
    have h2 := Store.get_some_lt s2 b nd2 hg2
    rw [h.1] at h2
    exact h2
  obtain ⟨nd, hg⟩ := Store.get_some_of_lt s b hb
  obtain ⟨nd2x, hg2x, hstep⟩ := h.2 b nd hg
  rw [hg2] at hg2x
  obtain rfl := Option.some.inj hg2x
  exact ⟨nd, hg, hstep⟩

theorem Store.get_setNode_cases (s : Store) (a : Addr) (nd2 : Node)
    (b : Addr) (x : Node) (h : (s.setNode a nd2).get b = some x) :
    (b = a ∧ x = nd2) ∨ (b ≠ a ∧ s.get b = some x) := by
  by_cases hab : b = a
  · subst hab
    by_cases hlt : b < s.nodes.length
    · left
      rw [Store.get_setNode_self s b nd2 hlt] at h
      exact ⟨rfl, (Option.some.inj h).symm⟩
    · exfalso
      have : (s.setNode b nd2).get b = none := by
        apply Store.get_none_of_le
        rw [Store.length_setNode]
        exact Nat.le_of_not_lt hlt
      rw [this] at h
      exact Option.noConfusion h
  · right
    refine ⟨hab, ?_⟩
    rw [← Store.get_setNode_ne s a b nd2 (fun he => hab he.symm)]
    exact h

theorem NewValueFromBytes_alloc (s : Store) (b : RawBytes) :
    AllocOnly s (NewValueFromBytes s b).2 ∧
    AllocAliasNone s (NewValueFromBytes s b).2 :=
  ⟨Store.allocOnly_alloc s _, Store.allocAliasNone_alloc s _ rfl⟩

theorem pathF_alloc (s : Store) (a : Addr) (p : String) (out : PRes)
    (s2 : Store) (h : pathF s a p = some (out, s2)) :
    AllocOnly s s2 ∧ AllocAliasNone s s2 := by
  cases hg : s.get a with
  | none => rw [pathF, hg] at h; exact absurd h (by simp)
  | some nd =>
    simp only [pathF, hg] at h
    cases hl : nd.aliasMap.bind (fun al => lookupKey al p) with
    | some r =>
      simp only [hl, Option.some.injEq, Prod.mk.injEq] at h
      obtain ⟨rfl, rfl⟩ := h
      exact ⟨allocOnly_refl s, allocAliasNone_refl s⟩
    | none =>
      simp only [hl] at h
      cases hpl : pvLookup nd.parsedValue p with
      | some r =>
        simp only [hpl, Option.some.injEq, Prod.mk.injEq] at h
        obtain ⟨rfl, rfl⟩ := h
        exact ⟨allocOnly_refl s, allocAliasNone_refl s⟩
      | none =>
        simp only [hpl] at h
        match hraw : nd.raw with
        | some rb =>
          simp only [hraw] at h
          match hf : jpFind rb p with
          | .errored =>
            simp only [hf, Option.some.injEq, Prod.mk.injEq] at h
            obtain ⟨rfl, rfl⟩ := h
            exact ⟨allocOnly_refl s, allocAliasNone_refl s⟩
          | .found cs c =>
            simp only [hf, Option.some.injEq, Prod.mk.injEq] at h
            obtain ⟨rfl, rfl⟩ := h
            exact NewValueFromBytes_alloc s _
          | .notFound =>
            simp only [hf, Option.some.injEq, Prod.mk.injEq] at h
            obtain ⟨rfl, rfl⟩ := h
            exact ⟨allocOnly_refl s, allocAliasNone_refl s⟩
        | none =>
          simp only [hraw, Option.some.injEq, Prod.mk.injEq] at h
          obtain ⟨rfl, rfl⟩ := h
          exact ⟨allocOnly_refl s, allocAliasNone_refl s⟩

theorem indexRaw_alloc (s : Store) (nd : Node) (i : Int) (out : PRes)
    (s2 : Store) (h : indexRaw s nd i = some (out, s2)) :
    AllocOnly s s2 ∧ AllocAliasNone s s2 := by
  match hraw : nd.raw with
  | some rb =>
    simp only [indexRaw, hraw] at h
    match hf : jpFind rb (itoa i) with
    | .errored =>
      simp only [hf, Option.some.injEq, Prod.mk.injEq] at h
      obtain ⟨rfl, rfl⟩ := h
      exact ⟨allocOnly_refl s, allocAliasNone_refl s⟩
    | .found cs c =>
      simp only [hf, Option.some.injEq, Prod.mk.injEq] at h
      obtain ⟨rfl, rfl⟩ := h
      exact NewValueFromBytes_alloc s _
    | .notFound =>
      simp only [hf, Option.some.injEq, Prod.mk.injEq] at h
      obtain ⟨rfl, rfl⟩ := h
      exact ⟨allocOnly_refl s, allocAliasNone_refl s⟩
  | none =>
    simp only [indexRaw, hraw, Option.some.injEq, Prod.mk.injEq] at h
    obtain ⟨rfl, rfl⟩ := h
    exact ⟨allocOnly_refl s, allocAliasNone_refl s⟩

theorem indexF_alloc (s : Store) (a : Addr) (i : Int) (out : PRes)
    (s2 : Store) (h : indexF s a i = some (out, s2)) :
    AllocOnly s s2 ∧ AllocAliasNone s s2 := by
  cases hg : s.get a with
  | none => rw [indexF, hg] at h; exact absurd h (by simp)
  | some nd =>
    simp only [indexF, hg] at h
    cases hl : nd.aliasMap.bind (fun al => lookupKey al (itoa i)) with
    | some r =>
      simp only [hl, Option.some.injEq, Prod.mk.injEq] at h
      obtain ⟨rfl, rfl⟩ := h
      exact ⟨allocOnly_refl s, allocAliasNone_refl s⟩
    | none =>
      simp only [hl] at h
      match hpv : nd.parsedValue with
      | some (.pArrV elems) =>
        simp only [hpv] at h
        by_cases hir : 0 ≤ i ∧ i.toNat < elems.length
        · rw [dif_pos hir] at h
          simp only [Option.some.injEq, Prod.mk.injEq] at h
          obtain ⟨rfl, rfl⟩ := h
          exact ⟨allocOnly_refl s, allocAliasNone_refl s⟩
        · rw [dif_neg hir] at h
          simp only [Option.some.injEq, Prod.mk.injEq] at h
          obtain ⟨rfl, rfl⟩ := h
          exact ⟨allocOnly_refl s, allocAliasNone_refl s⟩
      | none =>
        simp only [hpv] at h
        exact indexRaw_alloc s nd i out s2 h
      | some (.pObjV fields) =>
        simp only [hpv] at h
        exact indexRaw_alloc s nd i out s2 h
      | some (.pArrN xs) =>
        simp only [hpv] at h
        exact indexRaw_alloc s nd i out s2 h
      | some (.pObjN kvs) =>
        simp only [hpv] at h
        exact indexRaw_alloc s nd i out s2 h
      | some (.pBool b) =>
        simp only [hpv] at h
        exact indexRaw_alloc s nd i out s2 h
      | some (.pNum m) =>
        simp only [hpv] at h
        exact indexRaw_alloc s nd i out s2 h
      | some (.pStr st) =>
        simp only [hpv] at h
        exact indexRaw_alloc s nd i out s2 h

theorem setPathF_rawPreserved (s : Store) (a : Addr) (p : String)
    (v : GoIface) : RawPreserved s (setPathF s a p v) := by
  cases hg : s.get a with
  | none => simp only [setPathF, hg]; exact rawPreserved_refl s
  | some nd =>
    by_cases hto : nd.parsedType = OBJECT
    · match hpv : nd.parsedValue with
      | some (.pObjV fields) =>
        simp only [setPathF, hg, if_pos hto, hpv]
        have hga : (toValueAddr s v).2.get a = some nd :=
          (toValueAddr_alloc s v).1 a nd hg
        exact rawPreserved_trans (RawPreserved.of_allocOnly (toValueAddr_alloc s v).1)
          (RawPreserved.setNode hga rfl)
      | none =>
        simp only [setPathF, hg, if_pos hto, hpv]
        have hga : (toValueAddr s v).2.get a = some nd :=
          (toValueAddr_alloc s v).1 a nd hg
        exact rawPreserved_trans (RawPreserved.of_allocOnly (toValueAddr_alloc s v).1)
          (RawPreserved.setNode hga rfl)
      | some (.pArrV e) =>
        simp only [setPathF, hg, if_pos hto, hpv]; exact rawPreserved_refl s
      | some (.pArrN e) =>
        simp only [setPathF, hg, if_pos hto, hpv]; exact rawPreserved_refl s
      | some (.pObjN e) =>
        simp only [setPathF, hg, if_pos hto, hpv]; exact rawPreserved_refl s
      | some (.pBool e) =>
        simp only [setPathF, hg, if_pos hto, hpv]; exact rawPreserved_refl s
      | some (.pNum e) =>
        simp only [setPathF, hg, if_pos hto, hpv]; exact rawPreserved_refl s
      | some (.pStr e) =>
        simp only [setPathF, hg, if_pos hto, hpv]; exact rawPreserved_refl s
    · simp only [setPathF, hg, if_neg hto]; exact rawPreserved_refl s

theorem setIndexF_rawPreserved (s : Store) (a : Addr) (i : Int)
    (v : GoIface) : RawPreserved s (setIndexF s a i v) := by
  cases hg : s.get a with
  | none => simp only [setIndexF, hg]; exact rawPreserved_refl s
  | some nd =>
    by_cases hta : nd.parsedType = ARRAY ∧ 0 ≤ i
    · match hpv : nd.parsedValue with
      | some (.pArrV elems) =>
        simp only [setIndexF, hg, if_pos hta, hpv]
        by_cases hlen : i.toNat < elems.length
        · simp only [if_pos hlen]
          have hga : (toValueAddr s v).2.get a = some nd :=
            (toValueAddr_alloc s v).1 a nd hg
          exact rawPreserved_trans
            (RawPreserved.of_allocOnly (toValueAddr_alloc s v).1)
            (RawPreserved.setNode hga rfl)
        · simp only [if_neg hlen]; exact rawPreserved_refl s
      | none =>
        simp only [setIndexF, hg, if_pos hta, hpv]
        have hga : (toValueAddr s v).2.get a = some nd :=
          (toValueAddr_alloc s v).1 a nd hg
        exact rawPreserved_trans (RawPreserved.of_allocOnly (toValueAddr_alloc s v).1)
          (RawPreserved.setNode hga rfl)
      | some (.pObjV e) =>
        simp only [setIndexF, hg, if_pos hta, hpv]; exact rawPreserved_refl s
      | some (.pArrN e) =>
        simp only [setIndexF, hg, if_pos hta, hpv]; exact rawPreserved_refl s
      | some (.pObjN e) =>
        simp only [setIndexF, hg, if_pos hta, hpv]; exact rawPreserved_refl s
      | some (.pBool e) =>
        simp only [setIndexF, hg, if_pos hta, hpv]; exact rawPreserved_refl s
      | some (.pNum e) =>
        simp only [setIndexF, hg, if_pos hta, hpv]; exact rawPreserved_refl s
      | some (.pStr e) =>
        simp only [setIndexF, hg, if_pos hta, hpv]; exact rawPreserved_refl s
    · simp only [setIndexF, hg, if_neg hta]; exact rawPreserved_refl s

theorem addMetaF_rawPreserved (s : Store) (a : Addr) (k : String)
    (v : GoIface) : RawPreserved s (addMetaF s a k v) := by
  cases hg : s.get a with
  | none => simp only [addMetaF, hg]; exact rawPreserved_refl s
  | some nd =>
    cases hm : nd.meta with
    | some m =>
      simp only [addMetaF, hg, hm]
      exact setPathF_rawPreserved s m k v
    | none =>
      simp only [addMetaF, hg, hm]
      have hga : (NewValue s (.obj [])).2.get a = some nd :=
        (NewValue_alloc s (.obj [])).1 a nd hg
      exact rawPreserved_trans
        (rawPreserved_trans
          (RawPreserved.of_allocOnly (NewValue_alloc s (.obj [])).1)
          (@RawPreserved.setNode _ a nd
            { nd with meta := some (NewValue s (.obj [])).1 } hga rfl))
        (setPathF_rawPreserved _ (NewValue s (.obj [])).1 k v)

/-! ## Claim C3: raw bytes are immutable -/

/-- Claim C3: for every bytes-backed Value, the raw byte buffer is never
mutated by any later operation — `Path`, `Index`, `SetPath`, `SetIndex`,
`Value` and `AddMeta` all preserve the `raw` field of every existing
node — and a second Value independently constructed from the same
original bytes (in whatever store state) still materializes the original,
un-overlaid document. -/
theorem raw_immutable :
    (∀ s a p out s2, pathF s a p = some (out, s2) → RawPreserved s s2) ∧
    (∀ s a i out s2, indexF s a i = some (out, s2) → RawPreserved s s2) ∧
    (∀ s a p v, RawPreserved s (setPathF s a p v)) ∧
    (∀ s a i v, RawPreserved s (setIndexF s a i v)) ∧
    (∀ n s a r s2, valueF n s a = some (r, s2) → RawPreserved s s2) ∧
    (∀ s a k v, RawPreserved s (addMetaF s a k v)) ∧
    (∀ s cs j, (valueF 1 (NewValueFromBytes s (.valid cs j)).2
        (NewValueFromBytes s (.valid cs j)).1).map Prod.fst = some j) := by
  refine ⟨?_, ?_, setPathF_rawPreserved, setIndexF_rawPreserved, ?_,
    addMetaF_rawPreserved, ?_⟩
  · intro s a p out s2 h
    exact RawPreserved.of_allocOnly (pathF_alloc s a p out s2 h).1
  · intro s a i out s2 h
    exact RawPreserved.of_allocOnly (indexF_alloc s a i out s2 h).1
  · intro n s a r s2 h
    exact (valueF_sim n s a r s2 h).1.rawPreserved
  · intro s cs j
    cases j <;>
      simp [valueF, NewValueFromBytes, Store.get_alloc_new, valueBody, jkind,
        NULL, NOT_JSON, BOOLEAN, NUMBER, STRING, ARRAY, OBJECT, devalueF,
        pvalToNative, toPVal]

theorem raw_immutable_witness : RawPreserved c3Store c3Store2 :=
  raw_immutable.1 c3Store 0 "name" (.ok 1) c3Store2 (by rfl)

theorem AliasOK.of_allocAliasNone {s s2 : Store} (hok : AliasOK s)
    (h : AllocAliasNone s s2) : AliasOK s2 := by
  intro b nd hg hal
  rcases h b nd hg with h2 | h2
  · exact hok b nd h2 hal
  · exact absurd h2 hal

theorem AliasOK.parseSteps {s s2 : Store} (hok : AliasOK s)
    (h : ParseSteps s s2) : AliasOK s2 := by
  intro b nd2 hg hal
  obtain ⟨nd, hgb, hstep⟩ := h.get_rev b nd2 hg
  rw [hstep.parsedType_eq]
  exact hok b nd hgb (fun he => hal (hstep.aliasMap_eq.trans he))

theorem AliasOK_setPathF (s : Store) (a : Addr) (p : String) (v : GoIface)
    (hok : AliasOK s) : AliasOK (setPathF s a p v) := by
  have hq : AliasOK (toValueAddr s v).2 :=
    hok.of_allocAliasNone (toValueAddr_alloc s v).2
  cases hg : s.get a with
  | none => simp only [setPathF, hg]; exact hok
  | some nd =>
    by_cases hto : nd.parsedType = OBJECT
    · match hpv : nd.parsedValue with
      | some (.pObjV fields) =>
        simp only [setPathF, hg, if_pos hto, hpv]
        intro b x hgx hx
        rcases Store.get_setNode_cases _ a _ b x hgx with ⟨rfl, rfl⟩ | ⟨_, hgb⟩
        · exact Or.inl hto
        · exact hq b x hgb hx
      | none =>
        simp only [setPathF, hg, if_pos hto, hpv]
        intro b x hgx hx
        rcases Store.get_setNode_cases _ a _ b x hgx with ⟨rfl, rfl⟩ | ⟨_, hgb⟩
        · exact Or.inl hto
        · exact hq b x hgb hx
      | some (.pArrV e) => simp only [setPathF, hg, if_pos hto, hpv]; exact hok
      | some (.pArrN e) => simp only [setPathF, hg, if_pos hto, hpv]; exact hok
      | some (.pObjN e) => simp only [setPathF, hg, if_pos hto, hpv]; exact hok
      | some (.pBool e) => simp only [setPathF, hg, if_pos hto, hpv]; exact hok
      | some (.pNum e) => simp only [setPathF, hg, if_pos hto, hpv]; exact hok
      | some (.pStr e) => simp only [setPathF, hg, if_pos hto, hpv]; exact hok
    · simp only [setPathF, hg, if_neg hto]; exact hok

theorem AliasOK_setIndexF (s : Store) (a : Addr) (i : Int) (v : GoIface)
    (hok : AliasOK s) : AliasOK (setIndexF s a i v) := by
  have hq : AliasOK (toValueAddr s v).2 :=
    hok.of_allocAliasNone (toValueAddr_alloc s v).2
  cases hg : s.get a with
  | none => simp only [setIndexF, hg]; exact hok
  | some nd =>
    by_cases hta : nd.parsedType = ARRAY ∧ 0 ≤ i
    · match hpv : nd.parsedValue with
      | some (.pArrV elems) =>
        simp only [setIndexF, hg, if_pos hta, hpv]
        by_cases hlen : i.toNat < elems.length
        · simp only [if_pos hlen]
          intro b x hgx hx
          rcases Store.get_setNode_cases _ a _ b x hgx with
            ⟨rfl, rfl⟩ | ⟨_, hgb⟩
          · exact Or.inr hta.1
          · exact hq b x hgb hx
        · simp only [if_neg hlen]; exact hok
      | none =>
        simp only [setIndexF, hg, if_pos hta, hpv]
        intro b x hgx hx
        rcases Store.get_setNode_cases _ a _ b x hgx with ⟨rfl, rfl⟩ | ⟨_, hgb⟩
        · exact Or.inr hta.1
        · exact hq b x hgb hx
      | some (.pObjV e) => simp only [setIndexF, hg, if_pos hta, hpv]; exact hok
      | some (.pArrN e) => simp only [setIndexF, hg, if_pos hta, hpv]; exact hok
      | some (.pObjN e) => simp only [setIndexF, hg, if_pos hta, hpv]; exact hok
      | some (.pBool e) => simp only [setIndexF, hg, if_pos hta, hpv]; exact hok
      | some (.pNum e) => simp only [setIndexF, hg, if_pos hta, hpv]; exact hok
      | some (.pStr e) => simp only [setIndexF, hg, if_pos hta, hpv]; exact hok
    · simp only [setIndexF, hg, if_neg hta]; exact hok

theorem AliasOK_addMetaF (s : Store) (a : Addr) (k : String) (v : GoIface)
    (hok : AliasOK s) : AliasOK (addMetaF s a k v) := by
  cases hg : s.get a with
  | none => simp only [addMetaF, hg]; exact hok
  | some nd =>
    cases hm : nd.meta with
    | some m =>
      simp only [addMetaF, hg, hm]
      exact AliasOK_setPathF s m k v hok
    | none =>
      simp only [addMetaF, hg, hm]
      apply AliasOK_setPathF
      intro b x hgx hx
      rcases Store.get_setNode_cases _ a _ b x hgx with ⟨_, rfl⟩ | ⟨_, hgb⟩
      · exact hok a nd hg hx
      · exact (hok.of_allocAliasNone (NewValue_alloc s (.obj [])).2) b x hgb hx

/-- Claim C10: the alias (overlay) map is non-nil only on Values of kind
`OBJECT` or `ARRAY`.  It is nil on every construction path, and every
operation preserves the invariant: `SetPath` / `SetIndex` populate it
strictly under their kind guards, and no other operation ever touches
it. -/
theorem alias_only_on_containers :
    AliasOK Store.empty ∧
    (∀ s b, AliasOK s → AliasOK (NewValueFromBytes s b).2) ∧
    (∀ s g, AliasOK s → AliasOK (NewValue s g).2) ∧
    (∀ s a p out s2, AliasOK s → pathF s a p = some (out, s2) →
      AliasOK s2) ∧
    (∀ s a i out s2, AliasOK s → indexF s a i = some (out, s2) →
      AliasOK s2) ∧
    (∀ s a p v, AliasOK s → AliasOK (setPathF s a p v)) ∧
    (∀ s a i v, AliasOK s → AliasOK (setIndexF s a i v)) ∧
    (∀ s a k v, AliasOK s → AliasOK (addMetaF s a k v)) ∧
    (∀ n s a r s2, AliasOK s → valueF n s a = some (r, s2) →
      AliasOK s2) := by
  refine ⟨?_, ?_, ?_, ?_, ?_,
    fun s a p v hok => AliasOK_setPathF s a p v hok,
    fun s a i v hok => AliasOK_setIndexF s a i v hok,
    fun s a k v hok => AliasOK_addMetaF s a k v hok, ?_⟩
  · intro a nd h
    simp [Store.get, Store.empty] at h
  · intro s b hok
    exact hok.of_allocAliasNone (NewValueFromBytes_alloc s b).2
  · intro s g hok
    exact hok.of_allocAliasNone (NewValue_alloc s g).2
  · intro s a p out s2 hok h
    exact hok.of_allocAliasNone (pathF_alloc s a p out s2 h).2
  · intro s a i out s2 hok h
    exact hok.of_allocAliasNone (indexF_alloc s a i out s2 h).2
  · intro n s a r s2 hok h
    exact hok.parseSteps (valueF_sim n s a r s2 h).1

theorem alias_only_on_containers_witness : AliasOK c3Store :=
  alias_only_on_containers.2.1 Store.empty _
    alias_only_on_containers.1

/-! ## Claim C7: overlay writes on the wrong kind are no-ops -/

/-- Claim C7: `SetPath` on a Value whose kind is not `OBJECT` leaves the
store observably unchanged (a no-op, not an error); `SetIndex` on a Value
whose kind is not `ARRAY`, and `SetIndex` with a negative index on any
Value, are likewise no-ops. -/
theorem set_wrong_kind_noop (s : Store) (a : Addr) (nd : Node)
    (hg : s.get a = some nd) :
    (∀ p v, nd.parsedType ≠ OBJECT → setPathF s a p v = s) ∧
    (∀ i v, nd.parsedType ≠ ARRAY → setIndexF s a i v = s) ∧
    (∀ (i : Int) v, i < 0 → setIndexF s a i v = s) := by
  refine ⟨?_, ?_, ?_⟩
  · intro p v hob
    simp only [setPathF, hg, if_neg hob]
  · intro i v har
    have hcon : ¬(nd.parsedType = ARRAY ∧ 0 ≤ i) := fun hc => har hc.1
    simp only [setIndexF, hg, if_neg hcon]
  · intro i v hneg
    have hcon : ¬(nd.parsedType = ARRAY ∧ 0 ≤ i) := fun hc =>
      absurd hc.2 (Int.not_le.mpr hneg)
    simp only [setIndexF, hg, if_neg hcon]

theorem set_wrong_kind_noop_witness :
    setPathF c7Store 0 "k" (.num 1) = c7Store ∧
    setIndexF c7Store 0 0 (.num 1) = c7Store ∧
    setIndexF c7Store 0 (-1) (.num 1) = c7Store :=
  ⟨(set_wrong_kind_noop c7Store 0
      ⟨none, some (.pStr "x"), none, STRING, none⟩ (by rfl)).1 "k" (.num 1)
      (by decide),
   (set_wrong_kind_noop c7Store 0
      ⟨none, some (.pStr "x"), none, STRING, none⟩ (by rfl)).2.1 0 (.num 1)
      (by decide),
   (set_wrong_kind_noop c7Store 0
      ⟨none, some (.pStr "x"), none, STRING, none⟩ (by rfl)).2.2 (-1) (.num 1)
      (by decide)⟩

/-! ## Claim C6: misses fail with Undefined, names carried as specified -/

/-- Claim C6: whenever `Path(name)` / `Index(i)` find no value in overlay,
parsed structure or raw bytes, they fail with a recoverable `Undefined`
condition, never silently: every non-`ok` outcome of `Path` is either the
propagated locator error or `Undefined` carrying the requested name, and
every non-`ok` outcome of `Index` (including out-of-range indexes into a
parsed array, spelled out below) is the locator error or `Undefined`
carrying no name. -/
theorem miss_undefined_characterization :
    (∀ s a p out s2, pathF s a p = some (out, s2) →
      (∃ b, out = .ok b) ∨ out = .err (.undefined p) ∨
        out = .err .findErr) ∧
    (∀ s a i out s2, indexF s a i = some (out, s2) →
      (∃ b, out = .ok b) ∨ out = .err (.undefined "") ∨
        out = .err .findErr) ∧
    (∀ s a (i : Int) nd elems, s.get a = some nd →
      nd.aliasMap.bind (fun al => lookupKey al (itoa i)) = none →
      nd.parsedValue = some (.pArrV elems) →
      ¬(0 ≤ i ∧ i.toNat < elems.length) →
      indexF s a i = some (.err (.undefined ""), s)) ∧
    (∀ s a p nd rb, s.get a = some nd →
      nd.aliasMap.bind (fun al => lookupKey al p) = none →
      pvLookup nd.parsedValue p = none →
      nd.raw = some rb → jpFind rb p = .notFound →
      pathF s a p = some (.err (.undefined p), s)) := by
  refine ⟨?_, ?_, ?_, ?_⟩
  · intro s a p out s2 h
    cases hg : s.get a with
    | none => rw [pathF, hg] at h; exact absurd h (by simp)
    | some nd =>
      simp only [pathF, hg] at h
      cases hl : nd.aliasMap.bind (fun al => lookupKey al p) with
      | some r =>
        simp only [hl, Option.some.injEq, Prod.mk.injEq] at h
        exact Or.inl ⟨r, h.1.symm⟩
      | none =>
        simp only [hl] at h
        cases hpl : pvLookup nd.parsedValue p with
        | some r =>
          simp only [hpl, Option.some.injEq, Prod.mk.injEq] at h
          exact Or.inl ⟨r, h.1.symm⟩
        | none =>
          simp only [hpl] at h
          match hraw : nd.raw with
          | some rb =>
            simp only [hraw] at h
            match hf : jpFind rb p with
            | .errored =>
              simp only [hf, Option.some.injEq, Prod.mk.injEq] at h
              exact Or.inr (Or.inr h.1.symm)
            | .found cs c =>
              simp only [hf, Option.some.injEq, Prod.mk.injEq] at h
              exact Or.inl ⟨_, h.1.symm⟩
            | .notFound =>
              simp only [hf, Option.some.injEq, Prod.mk.injEq] at h
              exact Or.inr (Or.inl h.1.symm)
          | none =>
            simp only [hraw, Option.some.injEq, Prod.mk.injEq] at h
            exact Or.inr (Or.inl h.1.symm)
  · intro s a i out s2 h
    cases hg : s.get a with
    | none => rw [indexF, hg] at h; exact absurd h (by simp)
    | some nd =>
      simp only [indexF, hg] at h
      cases hl : nd.aliasMap.bind (fun al => lookupKey al (itoa i)) with
      | some r =>
        simp only [hl, Option.some.injEq, Prod.mk.injEq] at h
        exact Or.inl ⟨r, h.1.symm⟩
      | none =>
        simp only [hl] at h
        have hrawCase : ∀ (h2 : indexRaw s nd i = some (out, s2)),
            (∃ b, out = .ok b) ∨ out = .err (.undefined "") ∨
              out = .err .findErr := by
          intro h2
          match hraw : nd.raw with
          | some rb =>
            simp only [indexRaw, hraw] at h2
            match hf : jpFind rb (itoa i) with
            | .errored =>
              simp only [hf, Option.some.injEq, Prod.mk.injEq] at h2
              exact Or.inr (Or.inr h2.1.symm)
            | .found cs c =>
              simp only [hf, Option.some.injEq, Prod.mk.injEq] at h2
              exact Or.inl ⟨_, h2.1.symm⟩
            | .notFound =>
              simp only [hf, Option.some.injEq, Prod.mk.injEq] at h2
              exact Or.inr (Or.inl h2.1.symm)
          | none =>
            simp only [indexRaw, hraw, Option.some.injEq, Prod.mk.injEq] at h2
            exact Or.inr (Or.inl h2.1.symm)
        match hpv : nd.parsedValue with
        | some (.pArrV elems) =>
          simp only [hpv] at h
          by_cases hir : 0 ≤ i ∧ i.toNat < elems.length
          · rw [dif_pos hir] at h
            simp only [Option.some.injEq, Prod.mk.injEq] at h
            exact Or.inl ⟨_, h.1.symm⟩
          · rw [dif_neg hir] at h
            simp only [Option.some.injEq, Prod.mk.injEq] at h
            exact Or.inr (Or.inl h.1.symm)
        | none => simp only [hpv] at h; exact hrawCase h
        | some (.pObjV e) => simp only [hpv] at h; exact hrawCase h
        | some (.pArrN e) => simp only [hpv] at h; exact hrawCase h
        | some (.pObjN e) => simp only [hpv] at h; exact hrawCase h
        | some (.pBool e) => simp only [hpv] at h; exact hrawCase h
        | some (.pNum e) => simp only [hpv] at h; exact hrawCase h
        | some (.pStr e) => simp only [hpv] at h; exact hrawCase h
  · intro s a i nd elems hg hl hpv hir
    simp only [indexF, hg, hl, hpv]
    rw [dif_neg hir]
  · intro s a p nd rb hg hl hpl hraw hf
    simp only [pathF, hg, hl, hpl, hraw, hf]

theorem miss_undefined_witness :
    indexF c6ArrStore 2 2 = some (.err (.undefined ""), c6ArrStore) ∧
    pathF c3Store 0 "dne" = some (.err (.undefined "dne"), c3Store) :=
  ⟨miss_undefined_characterization.2.2.1 c6ArrStore 2 2
      ⟨none, some (.pArrV [0, 1]), none, ARRAY, none⟩ [0, 1]
      (by rfl) (by rfl) (by rfl) (by decide),
   miss_undefined_characterization.2.2.2 c3Store 0 "dne"
      ⟨some (.valid "\x7b\"name\":\"marty\"\x7d".toList
          (.obj [("name", .str "marty")])), none, none, OBJECT, none⟩
      (.valid "\x7b\"name\":\"marty\"\x7d".toList
          (.obj [("name", .str "marty")]))
      (by rfl) (by rfl) (by rfl) (by rfl) (by rfl)⟩

/-- Claim C1 evaluation at the failing input: on a bytes-backed object,
`Value()` followed by `SetPath("a", 2)` leaves the store completely
unchanged (the write is dropped), and `Path("a").Value()` still returns
the original `1`, not the native form `2` of the written value. -/
theorem setPath_after_forced_parse_dropped :
    c1After = c1Parsed ∧ c1Result = some (.num 1) ∧
      Native.num 1 ≠ Native.num 2 :=
  ⟨rfl, rfl, by simp⟩

/-- Counterexample to claim C5 as stated: materializing an Array container
with a `NOT_JSON` child yields `[null]` — the child DOES contribute an
entry (a `nil` slot), it is not silently dropped (which would yield
`[]`). -/
theorem notjson_array_child_kept_counterexample :
    (valueF 3 c5ArrStore 1).map Prod.fst = some (.arr [.null]) ∧
      Native.arr [Native.null] ≠ Native.arr [] :=
  ⟨rfl, by simp⟩

theorem devalueArrList_length (n : Nat) :
    ∀ l s out s2, devalueArrList (valueF n) s l = some (out, s2) →
      out.length = l.length := by
  intro l
  induction l with
  | nil =>
    intro s out s2 h
    simp only [devalueArrList, Option.some.injEq, Prod.mk.injEq] at h
    obtain ⟨rfl, rfl⟩ := h
    rfl
  | cons a rest ih =>
    intro s out s2 h
    simp only [devalueArrList] at h
    cases hva : valueF n s a with
    | none => simp only [hva] at h; exact Option.noConfusion h
    | some p =>
      obtain ⟨v, s1⟩ := p
      simp only [hva] at h
      cases hrest : devalueArrList (valueF n) s1 rest with
      | none => simp only [hrest] at h; exact Option.noConfusion h
      | some q =>
        obtain ⟨m, s3⟩ := q
        simp only [hrest, Option.some.injEq, Prod.mk.injEq] at h
        obtain ⟨rfl, rfl⟩ := h
        simp [ih s1 m s3 hrest]

theorem devalueObjList_filter (n : Nat) :
    ∀ l s, devalueObjList (valueF n) s l =
      devalueObjList (valueF n) s
        (l.filter fun e => decide (typeOf s e.2 ≠ some NOT_JSON)) := by
  intro l
  induction l with
  | nil => intro s; rfl
  | cons e rest ih =>
    intro s
    obtain ⟨k, a⟩ := e
    cases hx : typeOf s a with
    | none =>
      have hkeep : (decide (typeOf s (k, a).2 ≠ some NOT_JSON)) = true := by
        simp [hx]
      simp only [List.filter_cons, hkeep, if_true]
      simp only [devalueObjList, hx]
    | some t =>
      by_cases htj : t ≠ NOT_JSON
      · have hkeep : (decide (typeOf s (k, a).2 ≠ some NOT_JSON)) = true := by
          simp only [hx, decide_eq_true_eq]
          intro he
          exact htj (Option.some.inj he)
        simp only [List.filter_cons, hkeep, if_true]
        cases hva : valueF n s a with
        | none => simp only [devalueObjList, hx, if_pos htj, hva]
        | some p =>
          obtain ⟨v, s1⟩ := p
          have hst := (valueF_sim n s a v s1 hva).1
          have hfc : (rest.filter fun e =>
              decide (typeOf s e.2 ≠ some NOT_JSON)) =
              rest.filter fun e => decide (typeOf s1 e.2 ≠ some NOT_JSON) :=
            List.filter_congr (fun e _ => by rw [hst.typeOf_eq])
          simp only [devalueObjList, hx, if_pos htj, hva]
          rw [hfc, ← ih s1]
      · have hdrop : (decide (typeOf s (k, a).2 ≠ some NOT_JSON)) = false := by
          simp only [hx, decide_eq_false_iff_not, not_not]
          rw [not_not.mp htj]
        simp only [List.filter_cons, hdrop, if_false]
        simp only [devalueObjList, hx, if_neg htj]
        exact ih s

theorem overlayObjList_filter (n : Nat) :
    ∀ al s base, overlayObjList (valueF n) s base al =
      overlayObjList (valueF n) s base
        (al.filter fun e => decide (typeOf s e.2 ≠ some NOT_JSON)) := by
  intro al
  induction al with
  | nil => intro s base; rfl
  | cons e rest ih =>
    intro s base
    obtain ⟨k, a⟩ := e
    cases hx : typeOf s a with
    | none =>
      have hkeep : (decide (typeOf s (k, a).2 ≠ some NOT_JSON)) = true := by
        simp [hx]
      simp only [List.filter_cons, hkeep, if_true]
      simp only [overlayObjList, hx]
    | some t =>
      by_cases htj : t ≠ NOT_JSON
      · have hkeep : (decide (typeOf s (k, a).2 ≠ some NOT_JSON)) = true := by
          simp only [hx, decide_eq_true_eq]
          intro he
          exact htj (Option.some.inj he)
        simp only [List.filter_cons, hkeep, if_true]
        cases hva : valueF n s a with
        | none => simp only [overlayObjList, hx, if_pos htj, hva]
        | some p =>
          obtain ⟨v, s1⟩ := p
          have hst := (valueF_sim n s a v s1 hva).1
          have hfc : (rest.filter fun e =>
              decide (typeOf s e.2 ≠ some NOT_JSON)) =
              rest.filter fun e => decide (typeOf s1 e.2 ≠ some NOT_JSON) :=
            List.filter_congr (fun e _ => by rw [hst.typeOf_eq])
          simp only [overlayObjList, hx, if_pos htj, hva]
          rw [hfc, ← ih s1]
      · have hdrop : (decide (typeOf s (k, a).2 ≠ some NOT_JSON)) = false := by
          simp only [hx, decide_eq_false_iff_not, not_not]
          rw [not_not.mp htj]
        simp only [List.filter_cons, hdrop, if_false]
        simp only [overlayObjList, hx, if_neg htj]
        exact ih s base

theorem overlayArrList_filter (n : Nat) :
    ∀ al s base, (∀ e ∈ al, (atoi e.1).isSome = true) →
      overlayArrList (valueF n) s base al =
      overlayArrList (valueF n) s base
        (al.filter fun e => decide (typeOf s e.2 ≠ some NOT_JSON)) := by
  intro al
  induction al with
  | nil => intro s base _; rfl
  | cons e rest ih =>
    intro s base hkeys
    obtain ⟨k, a⟩ := e
    have hkrest : ∀ e2 ∈ rest, (atoi e2.1).isSome = true := fun e2 he2 =>
      hkeys e2 (List.mem_cons_of_mem _ he2)
    cases hk : atoi k with
    | none =>
      have := hkeys (k, a) (List.mem_cons_self _ _)
      rw [hk] at this
      exact absurd this (by simp)
    | some i =>
      by_cases hir : 0 ≤ i ∧ i.toNat < base.length
      · cases hx : typeOf s a with
        | none =>
          have hkeep : (decide (typeOf s (k, a).2 ≠ some NOT_JSON)) = true := by
            simp [hx]
          simp only [List.filter_cons, hkeep, if_true]
          simp only [overlayArrList, hk, hx, if_pos hir]
        | some t =>
          by_cases htj : t ≠ NOT_JSON
          · have hkeep :
                (decide (typeOf s (k, a).2 ≠ some NOT_JSON)) = true := by
              simp only [hx, decide_eq_true_eq]
              intro he
              exact htj (Option.some.inj he)
            simp only [List.filter_cons, hkeep, if_true]
            cases hva : valueF n s a with
            | none =>
              simp only [overlayArrList, hk, hx, if_pos hir, if_pos htj, hva]
            | some p =>
              obtain ⟨v, s1⟩ := p
              have hst := (valueF_sim n s a v s1 hva).1
              have hfc : (rest.filter fun e =>
                  decide (typeOf s e.2 ≠ some NOT_JSON)) =
                  rest.filter fun e =>
                    decide (typeOf s1 e.2 ≠ some NOT_JSON) :=
                List.filter_congr (fun e _ => by rw [hst.typeOf_eq])
              simp only [overlayArrList, hk, hx, if_pos hir, if_pos htj, hva]
              rw [hfc, ← ih s1 (base.set i.toNat v) hkrest]
          · have hdrop :
                (decide (typeOf s (k, a).2 ≠ some NOT_JSON)) = false := by
              simp only [hx, decide_eq_false_iff_not, not_not]
              rw [not_not.mp htj]
            simp only [List.filter_cons, hdrop, if_false]
            simp only [overlayArrList, hk, hx, if_pos hir, if_neg htj]
            exact ih s base hkrest
      · cases hkeep : (decide (typeOf s (k, a).2 ≠ some NOT_JSON)) with
        | true =>
          simp only [List.filter_cons, hkeep, if_true]
          simp only [overlayArrList, hk, if_neg hir]
          exact ih s base hkrest
        | false =>
          simp only [List.filter_cons, hkeep, if_false]
          simp only [overlayArrList, hk, if_neg hir]
          exact ih s base hkrest

/-- Claim C5 (amended): when `Value()` materializes an Object container,
children of kind `NOT_JSON` contribute no entry — materialization behaves
exactly as if they were absent; when it materializes an Array container,
every child contributes an entry, a `NOT_JSON` (never-parsed) child
contributing `nil`; and during the overlay merge, overlaid entries of kind
`NOT_JSON` are skipped for both container shapes — for arrays, provided
every overlay key parses as a 32-bit integer; a key that does not (for
example an index at or above 2^31, which `SetIndex` records via `itoa`)
makes `ParseInt` fail and `overlayAlias` panic before the kind check. -/
theorem materialize_notjson_handling :
    (∀ n l s, devalueObjList (valueF n) s l =
      devalueObjList (valueF n) s
        (l.filter fun e => decide (typeOf s e.2 ≠ some NOT_JSON))) ∧
    (∀ n l s out s2, devalueArrList (valueF n) s l = some (out, s2) →
      out.length = l.length) ∧
    (∀ n s a nd, s.get a = some nd → nd.parsedType = NOT_JSON →
      nd.parsedValue = none → valueF (n + 1) s a = some (.null, s)) ∧
    (∀ n al s base, overlayObjList (valueF n) s base al =
      overlayObjList (valueF n) s base
        (al.filter fun e => decide (typeOf s e.2 ≠ some NOT_JSON))) ∧
    (∀ n al s base, (∀ e ∈ al, (atoi e.1).isSome = true) →
      overlayArrList (valueF n) s base al =
      overlayArrList (valueF n) s base
        (al.filter fun e => decide (typeOf s e.2 ≠ some NOT_JSON))) ∧
    (∀ n s (base : List Native) k (a : Addr) rest, atoi k = none →
      overlayArrList (valueF n) s base ((k, a) :: rest) = none) := by
  refine ⟨fun n l s => devalueObjList_filter n l s,
    fun n l s out s2 h => devalueArrList_length n l s out s2 h,
    ?_,
    fun n al s base => overlayObjList_filter n al s base,
    fun n al s base hk => overlayArrList_filter n al s base hk,
    fun n s base k a rest h => by simp only [overlayArrList, h]⟩
  intro n s a nd hg ht hp
  have hc1 : ¬(nd.parsedValue.isSome ∨ nd.parsedType = NULL) := by
    rintro (h1 | h2)
    · rw [hp] at h1; simp at h1
    · rw [ht] at h2; exact absurd h2 (by decide)
  have hc2 : ¬(nd.parsedType ≠ NOT_JSON) := fun hc => hc ht
  simp only [valueF, hg, valueBody, if_neg hc1, if_neg hc2]

theorem materialize_notjson_handling_witness :
    valueF 3 c5ArrStore 0 = some (.null, c5ArrStore) ∧
    ([Native.null] : List Native).length = ([0] : List Addr).length ∧
    overlayArrList (valueF 2) c5ArrStore [.str "old"] [("0", 0)] =
      overlayArrList (valueF 2) c5ArrStore [.str "old"]
        (([("0", 0)] : List (String × Addr)).filter fun e =>
          decide (typeOf c5ArrStore e.2 ≠ some NOT_JSON)) ∧
    overlayArrList (valueF 2) c5ArrStore [.str "old"]
      [("2147483648", 0)] = none :=
  ⟨materialize_notjson_handling.2.2.1 2 c5ArrStore 0
      ⟨some (.invalid "asdf".toList), none, none, NOT_JSON, none⟩
      (by rfl) (by rfl) (by rfl),
   materialize_notjson_handling.2.1 2 [0] c5ArrStore [.null] c5ArrStore
      (by rfl),
   materialize_notjson_handling.2.2.2.2.1 2 [("0", 0)] c5ArrStore
      [.str "old"] (by decide),
   materialize_notjson_handling.2.2.2.2.2 2 c5ArrStore [.str "old"]
      "2147483648" 0 [] (by decide)⟩

/-! ## Claim C8: children are adopted by reference -/

theorem lookupKey_setKey {α : Type} (m : List (String × α)) (k : String)
    (v : α) : lookupKey (setKey m k v) k = some v := by
  induction m with
  | nil => simp [setKey, lookupKey]
  | cons e rest ih =>
    obtain ⟨k2, v2⟩ := e
    by_cases hk : k2 = k
    · simp [setKey, hk, lookupKey]
    · simp only [setKey, hk, if_false, lookupKey, ih]

theorem setPathF_get_other (s : Store) (a : Addr) (p : String) (v : GoIface)
    (b : Addr) (hab : b ≠ a) (ndb : Node) (hb : s.get b = some ndb) :
    (setPathF s a p v).get b = some ndb := by
  cases hg : s.get a with
  | none => simp only [setPathF, hg]; exact hb
  | some nd =>
    by_cases hto : nd.parsedType = OBJECT
    · match hpv : nd.parsedValue with
      | some (.pObjV fields) =>
        simp only [setPathF, hg, if_pos hto, hpv]
        rw [Store.get_setNode_ne _ a b _ (fun he => hab he.symm)]
        exact (toValueAddr_alloc s v).1 b ndb hb
      | none =>
        simp only [setPathF, hg, if_pos hto, hpv]
        rw [Store.get_setNode_ne _ a b _ (fun he => hab he.symm)]
        exact (toValueAddr_alloc s v).1 b ndb hb
      | some (.pArrV e) => simp only [setPathF, hg, if_pos hto, hpv]; exact hb
      | some (.pArrN e) => simp only [setPathF, hg, if_pos hto, hpv]; exact hb
      | some (.pObjN e) => simp only [setPathF, hg, if_pos hto, hpv]; exact hb
      | some (.pBool e) => simp only [setPathF, hg, if_pos hto, hpv]; exact hb
      | some (.pNum e) => simp only [setPathF, hg, if_pos hto, hpv]; exact hb
      | some (.pStr e) => simp only [setPathF, hg, if_pos hto, hpv]; exact hb
    · simp only [setPathF, hg, if_neg hto]; exact hb

/-- Claim C8: a Value stored into a container (`NewValue` on a map
containing it, or `SetPath` with it) is adopted by reference, without
copying: `B.Path(childKey)` returns the identical Value `A` (the same
address), before and after a mutation of `A`, so
`B.Path(childKey).Value()` reflects mutations of `A` — as the concrete
`\x7b"bucket": \x7b"x": 1→2\x7d\x7d` scenario shows. -/
theorem shared_child_by_reference :
    (∀ s a nd ck, s.get a = some nd →
      pathF (NewValue s (.obj [(ck, .val a)])).2
        (NewValue s (.obj [(ck, .val a)])).1 ck =
        some (.ok a, (NewValue s (.obj [(ck, .val a)])).2)) ∧
    (∀ s a nd ck k gv, s.get a = some nd →
      pathF (setPathF (NewValue s (.obj [(ck, .val a)])).2 a k gv)
        (NewValue s (.obj [(ck, .val a)])).1 ck =
        some (.ok a,
          setPathF (NewValue s (.obj [(ck, .val a)])).2 a k gv)) ∧
    (∀ s b ndb fields ck a, s.get b = some ndb →
      ndb.parsedType = OBJECT → ndb.parsedValue = some (.pObjV fields) →
      ndb.aliasMap = none →
      pathF (setPathF s b ck (.val a)) b ck =
        some (.ok a, setPathF s b ck (.val a))) ∧
    pathF c8After 2 "bucket" = some (.ok 1, c8After) ∧
    (valueF 3 c8After 1).map Prod.fst = some (.obj [("x", .num 2)]) ∧
    (valueF 3 c8After 2).map Prod.fst =
      some (.obj [("bucket", .obj [("x", .num 2)])]) := by
  refine ⟨?_, ?_, ?_, by rfl, by rfl, by rfl⟩
  · intro s a nd ck hg
    have hB : (NewValue s (.obj [(ck, .val a)])).2.get
        (NewValue s (.obj [(ck, .val a)])).1 =
        some ⟨none, some (.pObjV [(ck, a)]), none, OBJECT, none⟩ :=
      Store.get_alloc_new s _
    simp [pathF, hB, pvLookup, lookupKey]
  · intro s a nd ck k gv hg
    have hB : (NewValue s (.obj [(ck, .val a)])).2.get
        (NewValue s (.obj [(ck, .val a)])).1 =
        some ⟨none, some (.pObjV [(ck, a)]), none, OBJECT, none⟩ :=
      Store.get_alloc_new s _
    have hne : (NewValue s (.obj [(ck, .val a)])).1 ≠ a := by
      have hlt : a < s.nodes.length := Store.get_some_lt s a nd hg
      exact fun he => absurd (he ▸ hlt) (Nat.lt_irrefl _)
    have hB2 : (setPathF (NewValue s (.obj [(ck, .val a)])).2 a k gv).get
        (NewValue s (.obj [(ck, .val a)])).1 =
        some ⟨none, some (.pObjV [(ck, a)]), none, OBJECT, none⟩ :=
      setPathF_get_other _ a k gv _ hne _ hB
    simp [pathF, hB2, pvLookup, lookupKey]
  · intro s b ndb fields ck a hg hto hpv hal
    have hlt : b < s.nodes.length := Store.get_some_lt s b ndb hg
    have hset : (setPathF s b ck (.val a)).get b =
        some { ndb with
          parsedValue := some (.pObjV (setKey fields ck a)) } := by
      simp only [setPathF, hg, if_pos hto, hpv, toValueAddr]
      exact Store.get_setNode_self s b _ hlt
    simp [pathF, hset, hal, pvLookup, lookupKey_setKey]

/-- A two-node store: a number child and a string node, to witness the
by-reference adoption lemmas at concrete inputs. -/
theorem shared_child_by_reference_witness :
    pathF (NewValue c7Store (.obj [("bucket", .val 0)])).2
      (NewValue c7Store (.obj [("bucket", .val 0)])).1 "bucket" =
      some (.ok 0, (NewValue c7Store (.obj [("bucket", .val 0)])).2) :=
  shared_child_by_reference.1 c7Store 0
    ⟨none, some (.pStr "x"), none, STRING, none⟩ "bucket" (by rfl)

/-- Claim C9: for a bytes-backed Value of Array or Object kind with no
overlay write recorded and no parse forced, `bytes()` returns the raw
buffer verbatim (byte-identical to the original input), without touching
the store. -/
theorem bytes_cheap_path_verbatim (n : Nat) (s : Store) (a : Addr)
    (nd : Node) (rb : RawBytes) (hg : s.get a = some nd)
    (hk : nd.parsedType = ARRAY ∨ nd.parsedType = OBJECT)
    (hp : nd.parsedValue = none) (hal : nd.aliasMap = none)
    (hraw : nd.raw = some rb) :
    bytesF n s a = some (rb.chars, s) := by
  simp only [bytesF, hg, if_pos hk, hp, hal, hraw]

theorem bytes_cheap_path_witness :
    bytesF 1 c3Store 0 =
      some ("\x7b\"name\":\"marty\"\x7d".toList, c3Store) :=
  bytes_cheap_path_verbatim 1 c3Store 0
    ⟨some (.valid "\x7b\"name\":\"marty\"\x7d".toList
        (.obj [("name", .str "marty")])), none, none, OBJECT, none⟩
    (.valid "\x7b\"name\":\"marty\"\x7d".toList
        (.obj [("name", .str "marty")]))
    (by rfl) (by decide) (by rfl) (by rfl) (by rfl)

theorem identifyTypeChars_ws (ws : List Char) (hws : AllWsList ws)
    (rest : List Char) :
    identifyTypeChars (ws ++ rest) = identifyTypeChars rest := by
  induction ws with
  | nil => rfl
  | cons c tail ih =>
    have hc : isWsChar c = true := hws c (List.mem_cons_self c tail)
    have htail : AllWsList tail := fun c2 h2 =>
      hws c2 (List.mem_cons_of_mem _ h2)
    have hcc : c = ' ' ∨ c = '\t' ∨ c = '\n' ∨ c = '\r' := by
      simp only [isWsChar, Bool.or_eq_true, decide_eq_true_eq] at hc
      tauto
    rcases hcc with rfl | rfl | rfl | rfl <;>
      · show identifyTypeChars (_ :: (tail ++ rest)) = _
        rw [identifyTypeChars]
        norm_num [lbrace, isDigitChar]
        exact ih htail

theorem jsonValue_head (j : Jsn) (body : List Char)
    (h : JsonValue j body) (tail : List Char) :
    identifyTypeChars (body ++ tail) = some (jsnKind j) := by
  cases h with
  | jnull => rfl
  | jtrue => rfl
  | jfalse => rfl
  | jstr body => rfl
  | jarrEmpty ws hws => rfl
  | jarr xs inner he => rfl
  | jobjEmpty ws hws => rfl
  | jobj kvs inner hm => rfl
  | jnum neg d rest hd =>
    have hdc : d = '0' ∨ d = '1' ∨ d = '2' ∨ d = '3' ∨ d = '4' ∨ d = '5' ∨
        d = '6' ∨ d = '7' ∨ d = '8' ∨ d = '9' := by
      simp only [isDigitChar, Bool.or_eq_true, decide_eq_true_eq] at hd
      tauto
    cases neg with
    | false =>
      show identifyTypeChars (d :: (rest ++ tail)) = some NUMBER
      rcases hdc with rfl | rfl | rfl | rfl | rfl | rfl | rfl | rfl | rfl |
        rfl <;> rfl
    | true =>
      show identifyTypeChars ('-' :: (d :: rest ++ tail)) = some NUMBER
      rw [identifyTypeChars]
      norm_num [lbrace, isDigitChar]
      show identifyTypeChars (d :: (rest ++ tail)) = some NUMBER
      rcases hdc with rfl | rfl | rfl | rfl | rfl | rfl | rfl | rfl | rfl |
        rfl <;> rfl

/-- Claim C4: for every buffer that is valid JSON, the classifier scan
returns the kind a full parse reports (and in particular its fall-through
fatal branch is unreachable); `NewValueFromBytes` assigns exactly that
kind to a bytes-backed node, and assigns `NOT_JSON`, with no
classification scan, when validation fails. -/
theorem classifier_correct :
    (∀ j cs, ValidJsonDoc j cs →
      identifyTypeChars cs = some (jsnKind j)) ∧
    (∀ j cs, ValidJsonDoc j cs → identifyTypeChars cs ≠ none) ∧
    (∀ s cs j, ((NewValueFromBytes s (.valid cs j)).2.get
        (NewValueFromBytes s (.valid cs j)).1).map (·.parsedType) =
      some (jkind j)) ∧
    (∀ s cs, ((NewValueFromBytes s (.invalid cs)).2.get
        (NewValueFromBytes s (.invalid cs)).1).map (·.parsedType) =
      some NOT_JSON) := by
  have hmain : ∀ j cs, ValidJsonDoc j cs →
      identifyTypeChars cs = some (jsnKind j) := by
    intro j cs hvd
    obtain ⟨w1, body, w2, hw1, hw2, hv, heq⟩ := hvd
    subst heq
    rw [List.append_assoc, identifyTypeChars_ws w1 hw1]
    exact jsonValue_head j body hv w2
  refine ⟨hmain, ?_, ?_, ?_⟩
  · intro j cs hvd
    rw [hmain j cs hvd]
    exact Option.noConfusion
  · intro s cs j
    rw [NewValueFromBytes, Store.get_alloc_new]
    rfl
  · intro s cs
    rw [NewValueFromBytes, Store.get_alloc_new]
    rfl

theorem classifier_correct_witness :
    identifyTypeChars " \x7b\"a\":1\x7d ".toList =
      some (jsnKind (.obj [("a".toList, .num false '1' [])])) :=
  classifier_correct.1 (.obj [("a".toList, .num false '1' [])])
    " \x7b\"a\":1\x7d ".toList
    ⟨[' '], lbrace :: '"' :: 'a' :: '"' :: ':' :: '1' :: [rbrace], [' '],
      by intro c hc; simp at hc; subst hc; rfl,
      by intro c hc; simp at hc; subst hc; rfl,
      JsonValue.jobj _ _
        (JsonMembers.single [] [] [] [] ['a'] (.num false '1' []) ['1']
          (by intro c hc; simp at hc) (by intro c hc; simp at hc)
          (by intro c hc; simp at hc) (by intro c hc; simp at hc)
          (by
            have := JsonValue.jnum false '1' [] (by decide)
            simpa using this)),
      by decide⟩

